import Mathlib

/-!
Verification of the recursion planner, verifier-oracle encoder, tracing
worker and constraint algebra of the zksync-airbender repository, as a
shallow embedding in Lean 4.

Conventions of the embedding:
* Rust `panic!` / failed `assert!` / `unwrap()` on `None` are modelled by
  `Option`-returning functions, `none` meaning the call panics.
* Machine integers (`u32`, `u64`, `usize`) are modelled as `Nat`; the only
  place where wrap-around matters (the `as u32` cast on a delegation proof
  count) takes an explicit `% 2 ^ 32`.
* The prime field `F` (Rust `field::PrimeField`) is `ZMod p` for a prime
  `p`; `as_u64_reduced` is `ZMod.val`.
* External code (functions the repository calls but whose sources are not
  part of this snapshot) is abstracted into explicit parameters or, where
  noted, modelled from the specification.
-/

namespace Airbender

/-! ## Recursion strategy planner (execution_utils/src/recursion.rs) -/

/-- Per-register observable state. Modelled from the spec: each register
value carries `(value, last_access_timestamp)`. -/
structure FinalRegisterValue where
  value : Nat
  last_access_timestamp : Nat
deriving DecidableEq

/-- The observable scalars after a layer runs. Modelled from the spec
(section 3, ProofMetadata); the `delegation_proof_count` map is its list of
(delegation type, count) entries in iteration order. -/
structure ProofMetadata where
  register_values : List FinalRegisterValue
  basic_proof_count : Nat
  reduced_proof_count : Nat
  reduced_log_23_proof_count : Nat
  delegation_proof_count : List (Nat × Nat)
  prev_end_params_output : Option (List Nat)
deriving DecidableEq

/-- The three supported recursion strategies (recursion.rs). -/
inductive RecursionStrategy where
  | UseReducedLog23Machine
  | UseReducedLog23MachineMultiple
  | UseReducedLog23MachineOnly
deriving DecidableEq

/-- The four machine configurations (closed enum in the repository). -/
inductive Machine where
  | Standard
  | Reduced
  | ReducedLog23
  | ReducedFinal
deriving DecidableEq

/-- `RecursionStrategy::skip_first_layer`. -/
def RecursionStrategy.skip_first_layer : RecursionStrategy → Bool
  | .UseReducedLog23MachineOnly => true
  | _ => false

/-- `RecursionStrategy::switch_to_second_recursion_layer` (recursion.rs
lines 39-62); `N = 5`, `M = 2` are inlined. -/
def RecursionStrategy.switch_to_second_recursion_layer
    (s : RecursionStrategy) (proof_metadata : ProofMetadata) : Bool :=
  let continue_first_layer :=
    match s with
    | .UseReducedLog23Machine =>
        decide (proof_metadata.reduced_proof_count > 2)
          || proof_metadata.delegation_proof_count.any (fun x => decide (x.2 > 1))
    | .UseReducedLog23MachineMultiple =>
        decide (proof_metadata.reduced_proof_count > 5)
          || proof_metadata.delegation_proof_count.any (fun x => decide (x.2 > 2))
    | .UseReducedLog23MachineOnly => false
  !continue_first_layer

/-- `RecursionStrategy::finish_second_recursion_layer` (recursion.rs lines
64-89). For `UseReducedLog23Machine` the Rust code asserts
`proof_level == 0` and `reduced_log_23_proof_count == 1`; a failed assert
is `none`. -/
def RecursionStrategy.finish_second_recursion_layer
    (s : RecursionStrategy) (proof_metadata : ProofMetadata)
    (proof_level : Nat) : Option Bool :=
  match s with
  | .UseReducedLog23Machine =>
      if proof_level = 0 then
        if proof_metadata.reduced_log_23_proof_count = 1 then
          some (!false)
        else none
      else none
  | .UseReducedLog23MachineMultiple | .UseReducedLog23MachineOnly =>
      some (!(decide (proof_metadata.reduced_log_23_proof_count > 1)
          || proof_metadata.delegation_proof_count.any (fun x => decide (x.2 > 1))
          || decide (proof_level = 0)))

/-! ## End-parameter generation (recursion.rs lines 114-246)

The verifier-key digests, the chain encoding and the per-binary parameter
computation live outside this snapshot; they are abstracted into an
environment of opaque values and functions. -/

/-- An 8-word Blake2s-style digest. -/
abbrev Digest := List Nat

/-- The all-zero digest `[0u32; 8]`. -/
def zeroDigest : Digest := List.replicate 8 0

/-- External collaborators of `generate_constants_for_binary`: the
Blake2s chain encoding, the per-binary end-parameter computation, the
cached verifier-key digests and the embedded verifier binaries. -/
structure EndParamsEnv where
  compute_chain_encoding : List Digest → Digest
  generate_params_for_binary : List Nat → Machine → Digest
  universal_circuit_verifier_vk_params : Digest
  universal_circuit_log_23_verifier_vk_params : Digest
  recursion_layer_verifier_vk_params : Digest
  recursion_log_23_layer_verifier_vk_params : Digest
  UNIVERSAL_CIRCUIT_VERIFIER : List Nat
  BASE_LAYER_VERIFIER : List Nat
  RECURSION_LAYER_VERIFIER : List Nat

/-- `compute_commitment_for_chain_of_programs` (recursion.rs lines
235-246): parameters of each binary, with the zero digest prepended, are
chain encoded. -/
def compute_commitment_for_chain_of_programs (env : EndParamsEnv)
    (binaries_and_machines : List (List Nat × Machine)) : Digest :=
  env.compute_chain_encoding
    (zeroDigest ::
      binaries_and_machines.map (fun bm => env.generate_params_for_binary bm.1 bm.2))

/-- `generate_params_and_register_values` (recursion.rs lines 222-233). -/
def generate_params_and_register_values (env : EndParamsEnv)
    (machines_chain : List (List Nat × Machine))
    (last_machine : List Nat × Machine) : Digest × Digest :=
  (env.generate_params_for_binary last_machine.1 last_machine.2,
    compute_commitment_for_chain_of_programs env machines_chain)

/-- `generate_constants_for_binary` (recursion.rs lines 114-220).
`none` models the `panic!` on unsupported strategies for the
non-universal verifier. -/
def generate_constants_for_binary (env : EndParamsEnv)
    (base_layer_bin : List Nat) (recursion_mode : RecursionStrategy)
    (universal_verifier recompute : Bool) : Option (Digest × Digest) :=
  if universal_verifier then
    if recompute then
      match recursion_mode with
      | .UseReducedLog23Machine =>
          some (generate_params_and_register_values env
            [(base_layer_bin, .Standard), (env.UNIVERSAL_CIRCUIT_VERIFIER, .Reduced)]
            (env.UNIVERSAL_CIRCUIT_VERIFIER, .ReducedLog23))
      | .UseReducedLog23MachineMultiple =>
          some (generate_params_and_register_values env
            [(base_layer_bin, .Standard), (env.UNIVERSAL_CIRCUIT_VERIFIER, .Reduced),
              (env.UNIVERSAL_CIRCUIT_VERIFIER, .ReducedLog23)]
            (env.UNIVERSAL_CIRCUIT_VERIFIER, .ReducedLog23))
      | .UseReducedLog23MachineOnly =>
          some (generate_params_and_register_values env
            [(base_layer_bin, .Standard), (env.UNIVERSAL_CIRCUIT_VERIFIER, .ReducedLog23)]
            (env.UNIVERSAL_CIRCUIT_VERIFIER, .ReducedLog23))
    else
      let base_params := env.generate_params_for_binary base_layer_bin .Standard
      match recursion_mode with
      | .UseReducedLog23Machine =>
          some (env.universal_circuit_log_23_verifier_vk_params,
            env.compute_chain_encoding
              [zeroDigest, base_params, env.universal_circuit_verifier_vk_params])
      | .UseReducedLog23MachineMultiple =>
          some (env.universal_circuit_log_23_verifier_vk_params,
            env.compute_chain_encoding
              [zeroDigest, base_params, env.universal_circuit_verifier_vk_params,
                env.universal_circuit_log_23_verifier_vk_params])
      | .UseReducedLog23MachineOnly =>
          some (env.universal_circuit_log_23_verifier_vk_params,
            env.compute_chain_encoding
              [zeroDigest, base_params, env.universal_circuit_log_23_verifier_vk_params])
  else
    if recompute then
      match recursion_mode with
      | .UseReducedLog23Machine =>
          some (generate_params_and_register_values env
            [(base_layer_bin, .Standard), (env.BASE_LAYER_VERIFIER, .Reduced),
              (env.RECURSION_LAYER_VERIFIER, .Reduced)]
            (env.RECURSION_LAYER_VERIFIER, .ReducedLog23))
      | _ => none
    else
      let base_params := env.generate_params_for_binary base_layer_bin .Standard
      match recursion_mode with
      | .UseReducedLog23Machine =>
          some (env.recursion_log_23_layer_verifier_vk_params,
            env.compute_chain_encoding
              [zeroDigest, base_params, env.recursion_layer_verifier_vk_params,
                env.recursion_log_23_layer_verifier_vk_params])
      | _ => none

/-! ## Verifier oracle encoder (execution_utils/src/verifiers.rs)

The proof flattener (`verifier_common::proof_flattener`) and the per-ISA
allowed-delegation CSR lists are outside this snapshot; proofs are
abstracted to their flattened word streams and the CSR lists are passed in
an environment. -/

/-- A proof, abstracted to its flattened forms. Modelled from the spec:
`skeleton b` stands for `flatten_proof_for_skeleton(proof, b)` (with `b`
the `apply_shuffle` flag) and each entry of `queries` for
`flatten_query(query)` of one of its queries. -/
structure Proof where
  skeleton : Bool → List Nat
  queries : List (List Nat)

/-- `ProofList`: proofs of each layer plus delegation proofs keyed by
delegation type. -/
structure ProofList where
  basic_proofs : List Proof
  reduced_proofs : List Proof
  reduced_log_23_proofs : List Proof
  delegation_proofs : List (Nat × List Proof)

/-- Allowed-delegation CSR sets of the two machine families (Rust reads
`IWithoutByteAccessIsaConfigWithDelegation::ALLOWED_DELEGATION_CSRS` and
`IMStandardIsaConfig::ALLOWED_DELEGATION_CSRS`, constants outside this
snapshot). -/
structure IsaEnv where
  reduced_machine_allowed_delegation_types : List Nat
  full_machine_allowed_delegation_types : List Nat

/-- `split_timestamp`. Modelled from the spec: a timestamp is split into a
low and a high `u32` word; only the fact that it yields exactly two words
matters for the properties below. -/
def split_timestamp (t : Nat) : Nat × Nat := (t % 2 ^ 32, t / 2 ^ 32)

/-- Prefix words of the universal verifier
(`VerifierCircuitsIdentifiers`, verifiers.rs lines 11-27). -/
inductive VerifierCircuitsIdentifiers where
  | BaseLayer
  | RecursionLayer
  | RiscV
  | CombinedRecursionLayers
  | RecursionLog23Layer
  | CombinedMultipleRecursionLayers

/-- Numeric value of each `VerifierCircuitsIdentifiers` discriminant. -/
def VerifierCircuitsIdentifiers.toWord : VerifierCircuitsIdentifiers → Nat
  | .BaseLayer => 0
  | .RecursionLayer => 1
  | .RiscV => 3
  | .CombinedRecursionLayers => 4
  | .RecursionLog23Layer => 5
  | .CombinedMultipleRecursionLayers => 6

/-- The three oracle words of one register: value, then the split
timestamp. -/
def registerOracleWords (m : ProofMetadata) : List Nat :=
  m.register_values.flatMap fun r =>
    [r.value, (split_timestamp r.last_access_timestamp).1,
      (split_timestamp r.last_access_timestamp).2]

/-- Flattened words of one proof: skeleton (with the given
`apply_shuffle` flag) followed by all its flattened queries. -/
def proofOracleWords (p : Proof) (apply_shuffle : Bool) : List Nat :=
  p.skeleton apply_shuffle ++ p.queries.flatten

/-- The main-layer section of the oracle: the proof count followed by each
proof's flattened block. `count` goes through `try_into().unwrap()`
(panics at `2 ^ 32`) and indexing past the end of `proofs` panics. -/
def mainProofSectionWords (count : Nat) (proofs : List Proof) : Option (List Nat) :=
  if count < 2 ^ 32 then
    if count ≤ proofs.length then
      some (count :: (proofs.take count).flatMap (fun p => proofOracleWords p true))
    else none
  else none

/-- The delegation section: for each allowed delegation type in order, the
proof count (pushed with a wrapping `as u32` cast) then each delegation
proof's block with `apply_shuffle = false`. -/
def delegationSectionWords (delegations : List Nat) (proofs : ProofList) : List Nat :=
  delegations.flatMap fun delegation_type =>
    let delegation_proofs :=
      ((proofs.delegation_proofs.find? (fun kv => kv.1 = delegation_type)).map Prod.snd).getD []
    delegation_proofs.length % 2 ^ 32 ::
      delegation_proofs.flatMap (fun p => proofOracleWords p false)

/-- The words appended for `prev_end_params_output`, when present. -/
def prevEndParamsWords (m : ProofMetadata) : List Nat :=
  (m.prev_end_params_output).getD []

/-- `generate_oracle_data_from_metadata_and_proof_list` (verifiers.rs
lines 50-142). `none` models the panics: a register count other than 32,
a too-large count, indexing past a proof list, `reduced_proof_count != 0`
alongside basic proofs, a delegation count for a type outside the allowed
set, and the `"No proofs"` panic. -/
def generate_oracle_data_from_metadata_and_proof_list (env : IsaEnv)
    (metadata : ProofMetadata) (proofs : ProofList) : Option (List Nat) :=
  if metadata.register_values.length = 32 then
    let afterMain : Option (List Nat × List Nat) :=
      if metadata.basic_proof_count > 0 then
        if metadata.reduced_proof_count = 0 then
          (mainProofSectionWords metadata.basic_proof_count proofs.basic_proofs).map
            (fun w => (w, env.full_machine_allowed_delegation_types))
        else none
      else if metadata.reduced_proof_count > 0 then
        (mainProofSectionWords metadata.reduced_proof_count proofs.reduced_proofs).map
          (fun w => (w, env.reduced_machine_allowed_delegation_types))
      else if metadata.reduced_log_23_proof_count > 0 then
        (mainProofSectionWords metadata.reduced_log_23_proof_count
            proofs.reduced_log_23_proofs).map
          (fun w => (w, env.reduced_machine_allowed_delegation_types))
      else none
    afterMain.bind fun mainAndDelegations =>
      let delegations := mainAndDelegations.2
      if metadata.delegation_proof_count.all (fun kv => delegations.contains kv.1) then
        some (registerOracleWords metadata ++ mainAndDelegations.1 ++
          delegationSectionWords delegations proofs ++ prevEndParamsWords metadata)
      else none
  else none

/-- `generate_oracle_data_for_universal_verifier` (verifiers.rs lines
31-47): the inner encoding with a layer-identifying prefix word; all
counts zero is the `panic!` about unsupported final proofs. -/
def generate_oracle_data_for_universal_verifier (env : IsaEnv)
    (metadata : ProofMetadata) (proofs : ProofList) : Option (List Nat) :=
  (generate_oracle_data_from_metadata_and_proof_list env metadata proofs).bind
    fun oracle =>
      if metadata.basic_proof_count > 0 then
        some (VerifierCircuitsIdentifiers.BaseLayer.toWord :: oracle)
      else if metadata.reduced_proof_count > 0 then
        some (VerifierCircuitsIdentifiers.RecursionLayer.toWord :: oracle)
      else if metadata.reduced_log_23_proof_count > 0 then
        some (VerifierCircuitsIdentifiers.RecursionLog23Layer.toWord :: oracle)
      else none

/-! ## CPU tracing worker (gpu_prover/src/execution/cpu_worker.rs)

The RISC-V simulator (`run_cycles`) and the RAM tracer are external; a run
is abstracted to the per-chunk observations the worker reads from them:
whether the simulator reported halt during that chunk, and the touched-RAM
cell count after it. The list of observations doubles as the
`num_main_chunks_upper_bound`: running out of observations is the
`end of execution was not reached` assert. Channel sends are recorded as
an ordered message list. -/

/-- `MainCircuitType` (gpu_prover/src/circuit_type.rs). -/
inductive MainCircuitType where
  | FinalReducedRiscVMachine
  | MachineWithoutSignedMulDiv
  | ReducedRiscVLog23Machine
  | ReducedRiscVMachine
  | RiscVCycles
deriving DecidableEq

/-- `DelegationCircuitType` (gpu_prover/src/circuit_type.rs). -/
inductive DelegationCircuitType where
  | BigIntWithControl
  | Blake2WithCompression
deriving DecidableEq

/-- `CircuitType`: a main or a delegation circuit; skip-set keys pair one
of these with a chunk index. -/
inductive CircuitType where
  | Main (circuit_type : MainCircuitType)
  | Delegation (circuit_type : DelegationCircuitType)
deriving DecidableEq

/-- What the Mode A worker observes from the simulator after one
`run_cycles` call: the halt flag and the current value of
`get_touched_ram_cells_count`. -/
structure ChunkObs where
  finished : Bool
  touched_ram_cells_count : Nat
deriving DecidableEq

/-- Messages a worker sends on its results channel (the `WorkerResult`
variants relevant to Modes A and B; payloads are reduced to the chunk
index, whether a setup/teardown chunk is populated, and the traced-chunk
counts). -/
inductive WorkerResult where
  | SetupAndTeardownChunk (index : Nat) (populated : Bool)
  | RAMTracingResult (chunks_traced_count : Nat)
  | CyclesChunk (index : Nat)
  | CyclesTracingResult (chunks_traced_count : Nat)
deriving DecidableEq

/-- Rust `usize::div_ceil`. -/
def div_ceil (a b : Nat) : Nat := (a + b - 1) / b

/-- Number of `SetupAndTeardownChunk` messages in a message list. -/
def countSetupAndTeardownMsgs (msgs : List WorkerResult) : Nat :=
  (msgs.filter fun m =>
    match m with
    | .SetupAndTeardownChunk _ _ => true
    | _ => false).length

/-- The post-loop phase of Mode A (cpu_worker.rs lines 239-299): the
chunker is built from the final touched-RAM data and distributes the
touched cells into `div_ceil` populated chunks (chunk count modelled from
the spec, section 4.3); the worker asserts
`chunks_traced_count == chunks_count + next_chunk_index_with_no_setup_and_teardown`,
emits each populated chunk unless skipped, and ends with
`RAMTracingResult`. -/
def traceTouchedRamFinish (cpc : Nat) (skip : Nat → Bool)
    (chunks_traced next_no_setup touched : Nat) : Option (List WorkerResult) :=
  let setup_and_teardown_chunks_count := div_ceil touched cpc
  if chunks_traced = setup_and_teardown_chunks_count + next_no_setup then
    some
      ((List.range' next_no_setup (chunks_traced - next_no_setup)).filterMap
          (fun index =>
            if skip index then none
            else some (WorkerResult.SetupAndTeardownChunk index true)) ++
        [WorkerResult.RAMTracingResult chunks_traced])
  else none

/-- The chunk loop of Mode A (cpu_worker.rs lines 182-234): each iteration
runs one chunk, decides whether an already-completed chunk needs no
setup/teardown (emitting a `chunk = None` message unless that index is
skipped), and breaks on halt into the finish phase. `skip i` stands for
`skip_set.contains((CircuitType::Main(circuit_type), i))`. -/
def traceTouchedRamLoop (cpc : Nat) (skip : Nat → Bool) :
    List ChunkObs → Nat → Nat → Option (List WorkerResult)
  | [], _, _ => none
  | o :: rest, chunks_traced, next_no_setup =>
      if div_ceil o.touched_ram_cells_count cpc < chunks_traced + 1 - next_no_setup then
        (if o.finished then
          traceTouchedRamFinish cpc skip (chunks_traced + 1) (next_no_setup + 1)
            o.touched_ram_cells_count
        else
          traceTouchedRamLoop cpc skip rest (chunks_traced + 1)
            (next_no_setup + 1)).map
          (fun tail =>
            (if skip next_no_setup then []
              else [WorkerResult.SetupAndTeardownChunk next_no_setup false]) ++ tail)
      else
        if o.finished then
          traceTouchedRamFinish cpc skip (chunks_traced + 1) next_no_setup
            o.touched_ram_cells_count
        else traceTouchedRamLoop cpc skip rest (chunks_traced + 1) next_no_setup

/-- Mode A, `trace_touched_ram` (cpu_worker.rs lines 141-301), with
`cycles_per_chunk = domain_size - 1` already computed by the caller. -/
def trace_touched_ram (cpc : Nat) (skip : Nat → Bool) (obs : List ChunkObs) :
    Option (List WorkerResult) :=
  traceTouchedRamLoop cpc skip obs 0 0

/-- The chunk loop of Mode B, `trace_cycles` (cpu_worker.rs lines
333-430): a chunk is traced (allocating a buffer and emitting a
`CyclesChunk`) exactly when `chunk_index % split_count == split_index` and
the index is not skipped; all other chunks are fast-forwarded without a
message. `obs` gives per chunk whether `run_cycles` reported halt;
`split_count = 0` is the division-by-zero panic of `%`. -/
def traceCyclesLoop (split_count split_index : Nat) (skip : Nat → Bool) :
    List Bool → Nat → Option (List WorkerResult)
  | [], _ => none
  | finished :: rest, chunk_index =>
      if split_count = 0 then none
      else
        (if finished then some [WorkerResult.CyclesTracingResult (chunk_index + 1)]
          else traceCyclesLoop split_count split_index skip rest
            (chunk_index + 1)).map
          (fun tail =>
            (if chunk_index % split_count = split_index ∧ ¬skip chunk_index then
              [WorkerResult.CyclesChunk chunk_index]
              else []) ++ tail)

/-- Mode B, `trace_cycles`: the loop starting at chunk index 0. -/
def trace_cycles (split_count split_index : Nat) (skip : Nat → Bool)
    (obs : List Bool) : Option (List WorkerResult) :=
  traceCyclesLoop split_count split_index skip obs 0

/-! ## Constraint algebra (cs/src/constraint.rs)

The field is `ZMod p`; `as_u64_reduced` is `ZMod.val`. A Rust
`Term::Expression` stores `inner : [Variable; 4]` together with `degree`,
every constructor filling the slots past `degree` with the placeholder
variable; we represent exactly the meaningful prefix `inner[..degree]` as
a list. The asserts that check that invariant (the placeholder checks in
`Term::normalize` and the `is_sorted` checks inside `Ord::cmp`, which only
runs on term-normalized data) hold by representation. `Term.wf` states
the remaining constructor invariant — an expression has degree at least
one — under which the `assert!(*degree > 0)` arms of `combine` and
`same_multiple` are unreachable. -/

/-- Circuit variables: opaque `u64` identifiers (cs `Variable`). -/
abbrev Variable := Nat

/-- The distinguished placeholder variable (`u64::MAX`). -/
def placeholder_variable : Variable := 2 ^ 64 - 1

/-- `Variable::is_placeholder`. -/
def Variable.is_placeholder (v : Variable) : Bool := v = placeholder_variable

/-- A polynomial term: a field constant or a monomial
`coeff * x_1 * ... * x_d`. -/
inductive Term (p : ℕ) where
  | Constant (c : ZMod p)
  | Expression (coeff : ZMod p) (vars : List Variable)
deriving DecidableEq

/-- `Term::degree`. -/
def Term.degree {p : ℕ} : Term p → Nat
  | .Constant _ => 0
  | .Expression _ vars => vars.length

/-- `Term::get_coef`. -/
def Term.get_coef {p : ℕ} : Term p → ZMod p
  | .Constant c => c
  | .Expression coeff _ => coeff

/-- `Term::is_zero`. -/
def Term.is_zero {p : ℕ} : Term p → Bool
  | .Constant c => c = 0
  | .Expression coeff _ => coeff = 0

/-- `Term::normalize`: a zero coefficient collapses the term to
`Constant(0)`; otherwise the variables are sorted (Rust additionally
asserts the placeholder representation invariant). -/
def Term.normalize {p : ℕ} : Term p → Term p
  | .Constant c => .Constant c
  | .Expression coeff vars =>
      if coeff = 0 then .Constant 0
      else .Expression coeff (vars.insertionSort fun a b => a ≤ b)

/-- `Term::combine`: `some` of the merged term when both are like terms
(the Rust method then mutates the receiver and returns `true`), `none`
when they do not combine. The constant-versus-expression arms with equal
degrees assert `degree > 0` in Rust; they are unreachable for well-formed
terms and return `none` here. -/
def Term.combine {p : ℕ} (t o : Term p) : Option (Term p) :=
  if t.degree = o.degree then
    match t, o with
    | .Constant c, .Constant c2 => some (.Constant (c + c2))
    | .Expression coeff vars, .Expression coeff2 vars2 =>
        if vars = vars2 then some (.Expression (coeff + coeff2) vars) else none
    | _, _ => none
  else none

/-- `Term::contains_var`. -/
def Term.contains_var {p : ℕ} (t : Term p) (v : Variable) : Bool :=
  match t with
  | .Constant _ => false
  | .Expression _ vars => vars.contains v

/-- `Term::degree_for_var`: the multiplicity of a variable. -/
def Term.degree_for_var {p : ℕ} (t : Term p) (v : Variable) : Nat :=
  match t with
  | .Constant _ => 0
  | .Expression _ vars => vars.count v

/-- `Term::prefactor_for_var`: the coefficient, assuming the term
contains the variable (Rust panics on a constant term; a constant never
contains a variable, so that arm is unreachable where the method is
called and yields `0` here). -/
def Term.prefactor_for_var {p : ℕ} : Term p → ZMod p
  | .Constant _ => 0
  | .Expression coeff _ => coeff

/-- `Term::scale`. -/
def Term.scale {p : ℕ} (t : Term p) (scaling_factor : ZMod p) : Term p :=
  match t with
  | .Constant c => .Constant (c * scaling_factor)
  | .Expression coeff vars => .Expression (coeff * scaling_factor) vars

/-- Rust `usize` comparison. -/
def natCmp (a b : Nat) : Ordering :=
  if a < b then .lt else if b < a then .gt else .eq

/-- Lexicographic comparison of variable slices (Rust `<[_]>::cmp`; the
slices compared always have equal length). -/
def varsCmp : List Variable → List Variable → Ordering
  | [], [] => .eq
  | [], _ :: _ => .lt
  | _ :: _, [] => .gt
  | a :: l, b :: m =>
      match natCmp a b with
      | .eq => varsCmp l m
      | o => o

/-- `Ord::cmp` on terms (constraint.rs lines 43-78): degree descending;
within a degree, constants before expressions; expressions by their
sorted variables, ties broken by the reduced coefficient. -/
def Term.cmp {p : ℕ} (s o : Term p) : Ordering :=
  let t := natCmp o.degree s.degree
  if t ≠ .eq then t
  else
    match s, o with
    | .Constant cs, .Constant co => natCmp cs.val co.val
    | .Constant _, .Expression _ _ => .lt
    | .Expression _ _, .Constant _ => .gt
    | .Expression cs vs, .Expression co vo =>
        let t2 := varsCmp vs vo
        if t2 ≠ .eq then t2 else natCmp cs.val co.val

/-- The boolean "not greater" order used to model the stable
`self.terms.sort()`. -/
def Term.le {p : ℕ} (s o : Term p) : Bool := decide (Term.cmp s o ≠ .gt)

/-- `Term.le` as the propositional relation consumed by the sort. -/
def Term.leP {p : ℕ} (s o : Term p) : Prop := Term.le s o = true

instance {p : ℕ} : DecidableRel (@Term.leP p) :=
  fun s o => instDecidableEqBool (Term.le s o) true

/-- Constructor invariant of representable expression terms: the degree
is at least one (Rust constructors never build a degree-zero
expression). -/
def Term.wf {p : ℕ} : Term p → Prop
  | .Constant _ => True
  | .Expression _ vars => vars ≠ []

instance {p : ℕ} (t : Term p) : Decidable t.wf := by
  cases t with
  | Constant c => exact isTrue trivial
  | Expression coeff vars => exact inferInstanceAs (Decidable (vars ≠ []))

/-- The monomial of a term, as a multiset of variables (the commutative
shape that `combine` compares after sorting). -/
def Term.monom {p : ℕ} : Term p → Multiset Variable
  | .Constant _ => 0
  | .Expression _ vars => (vars : Multiset Variable)

/-- A polynomial: a sum of terms. -/
structure Constraint (p : ℕ) where
  terms : List (Term p)
deriving DecidableEq

/-- `Constraint::empty`. -/
def Constraint.empty (p : ℕ) : Constraint p := ⟨[]⟩

/-- Maximum degree of a list of terms (`Constraint::degree` is a fold
with `max` starting at zero). -/
def degreeOfList {p : ℕ} (ts : List (Term p)) : Nat :=
  ts.foldl (fun cur_degree t => max cur_degree t.degree) 0

/-- `Constraint::degree`. -/
def Constraint.degree {p : ℕ} (c : Constraint p) : Nat := degreeOfList c.terms

/-- Well-formedness of a constraint: all terms are representable. -/
def Constraint.wf {p : ℕ} (c : Constraint p) : Prop := ∀ t ∈ c.terms, t.wf

instance {p : ℕ} (c : Constraint p) : Decidable c.wf :=
  inferInstanceAs (Decidable (∀ t ∈ c.terms, t.wf))

/-- Contribution of one term to the coefficient of a monomial. -/
def termContrib {p : ℕ} (t : Term p) (m : Multiset Variable) : ZMod p :=
  if t.monom = m then t.get_coef else 0

/-- Coefficient of a monomial in a term list: the sum of the coefficients
of all terms with that monomial (the semantics that normalization
preserves). -/
def coeffAt {p : ℕ} (ts : List (Term p)) (m : Multiset Variable) : ZMod p :=
  (ts.map fun t => termContrib t m).sum

/-- One step of the like-term folding loop in `Constraint::normalize`:
scan the accumulated terms for the first one that combines with the new
element, merge into it (re-normalizing the merged term) or append. -/
def insertCombine {p : ℕ} : List (Term p) → Term p → List (Term p)
  | [], el => [el]
  | a :: rest, el =>
      match a.combine el with
      | some merged => merged.normalize :: rest
      | none => a :: insertCombine rest el

/-- The like-term folding loop of `Constraint::normalize`. -/
def combineLikeTerms {p : ℕ} (ts : List (Term p)) : List (Term p) :=
  ts.foldl insertCombine []

/-- `Constraint::normalize` (constraint.rs lines 484-525) on the term
list: normalize terms, stable-sort, fold like terms, drop zero terms,
assert the final degree is at most 2, canonicalize `[Constant(0)]` to the
empty list, re-normalize and re-sort, and assert the degree did not grow.
`none` models a failed assert. -/
def normalizeList {p : ℕ} (ts : List (Term p)) : Option (List (Term p)) :=
  let ts1 := ts.map Term.normalize
  let sorted := ts1.insertionSort Term.leP
  let initial_degree := degreeOfList sorted
  let combined := combineLikeTerms sorted
  let filtered := combined.filter fun t => !t.is_zero
  let final_degree := degreeOfList filtered
  if final_degree ≤ 2 then
    if final_degree = 0 ∧ filtered = [Term.Constant 0] then some []
    else
      let final := (filtered.map Term.normalize).insertionSort Term.leP
      if final_degree ≤ initial_degree then some final else none
  else none

/-- `Constraint::normalize`. -/
def Constraint.normalize {p : ℕ} (c : Constraint p) : Option (Constraint p) :=
  (normalizeList c.terms).map Constraint.mk

/-- `Add for Constraint`: concatenate the term lists and normalize. -/
def Constraint.add {p : ℕ} (c rhs : Constraint p) : Option (Constraint p) :=
  (normalizeList (c.terms ++ rhs.terms)).map Constraint.mk

/-- `Constraint::scale`. -/
def Constraint.scale {p : ℕ} (c : Constraint p) (scaling_factor : ZMod p) :
    Constraint p :=
  ⟨c.terms.map fun t => t.scale scaling_factor⟩

/-- `Constraint::contains_var`. -/
def Constraint.contains_var {p : ℕ} (c : Constraint p) (v : Variable) : Bool :=
  c.terms.any fun t => t.contains_var v

/-- `Constraint::degree_for_var`: maximum multiplicity across terms. -/
def Constraint.degree_for_var {p : ℕ} (c : Constraint p) (v : Variable) : Nat :=
  c.terms.foldl (fun degree t => max degree (t.degree_for_var v)) 0

/-- `Constraint::as_constant`: asserts degree zero and exactly one term
(in particular it panics on the empty constraint). -/
def Constraint.as_constant {p : ℕ} (c : Constraint p) : Option (ZMod p) :=
  if c.degree = 0 then
    match c.terms with
    | [t] => some t.get_coef
    | _ => none
  else none

/-- `Mul for Term` (constraint.rs lines 828-913): the product of two
terms as a one-term constraint; two expressions concatenate their
variables, asserting the combined degree stays within the inner capacity
of 4. -/
def Term.mulTerm {p : ℕ} (s o : Term p) : Option (Constraint p) :=
  match s, o with
  | .Expression coeff vars, .Expression coeff2 vars2 =>
      if vars.length + vars2.length ≤ 4 then
        some ⟨[.Expression (coeff * coeff2) (vars ++ vars2)]⟩
      else none
  | .Expression coeff vars, .Constant coeff2 =>
      some ⟨[.Expression (coeff * coeff2) vars]⟩
  | .Constant coeff, .Expression coeff2 vars2 =>
      some ⟨[.Expression (coeff * coeff2) vars2]⟩
  | .Constant coeff, .Constant coeff2 => some ⟨[.Constant (coeff * coeff2)]⟩

/-- `Mul<Term> for Constraint`: multiply every term, accumulating with
the normalizing addition, then normalize once more. -/
def Constraint.mul_term {p : ℕ} (c : Constraint p) (rhs : Term p) :
    Option (Constraint p) := do
  let ans ← c.terms.foldlM
    (fun ans existing => do
      let intermediate ← Term.mulTerm existing rhs
      ans.add intermediate)
    (Constraint.empty p)
  ans.normalize

/-- The single pass of `Constraint::express_variable` over the terms:
collect the terms not containing the variable (in order) and overwrite
the prefactor with each containing term's coefficient (so it ends as the
last containing term's); a containing term of multiplicity other than one
is a failed assert. -/
def exprScan {p : ℕ} (v : Variable) :
    List (Term p) → ZMod p → Option (List (Term p) × ZMod p)
  | [], prefactor => some ([], prefactor)
  | t :: rest, prefactor =>
      if t.contains_var v then
        if t.degree_for_var v = 1 then exprScan v rest t.prefactor_for_var
        else none
      else (exprScan v rest prefactor).map fun r => (t :: r.1, r.2)

/-- `Constraint::express_variable` (constraint.rs lines 552-576): under
the asserts that the constraint contains the variable linearly, scale the
remaining terms by the negated inverse of the prefactor and normalize;
`inverse().unwrap()` of a zero prefactor is a panic. -/
def Constraint.express_variable {p : ℕ} (c : Constraint p) (v : Variable) :
    Option (Constraint p) :=
  if c.contains_var v ∧ c.degree_for_var v = 1 then
    (exprScan v c.terms 0).bind fun new_and_prefactor =>
      let prefactor := new_and_prefactor.2
      if prefactor = 0 then none
      else
        (normalizeList (new_and_prefactor.1.map fun t =>
          t.scale (-prefactor⁻¹))).map Constraint.mk
  else none

/-- The single pass of `Constraint::substitute_variable` over the terms:
the extra constraints to add (scaled or multiplied copies of the
substituted expression, in term order) and the kept terms. A constant
term cannot contain the variable; a containing term of degree other than
one or two, or a placeholder cofactor, is a failed assert. -/
def substScan {p : ℕ} (v : Variable) (expression : Constraint p) :
    List (Term p) → Option (List (Constraint p) × List (Term p))
  | [] => some ([], [])
  | t :: rest =>
      if t.contains_var v then
        match t with
        | .Constant _ => none
        | .Expression coeff vars =>
          match vars with
          | [_] =>
              (substScan v expression rest).map fun r =>
                (expression.scale coeff :: r.1, r.2)
          | [x, y] =>
              (if x = v then some y else if y = v then some x else none).bind
                fun other_var =>
                  if other_var.is_placeholder then none
                  else
                    (expression.mul_term (.Expression coeff [other_var])).bind
                      fun product =>
                        (substScan v expression rest).map fun r =>
                          (product :: r.1, r.2)
          | _ => none
      else (substScan v expression rest).map fun r => (r.1, t :: r.2)

/-- `Constraint::substitute_variable` (constraint.rs lines 582-629):
keep the terms without the variable, add each replacement constraint with
the normalizing addition (asserting degree at most 2 after each), then
normalize. -/
def Constraint.substitute_variable {p : ℕ} (c : Constraint p) (v : Variable)
    (expression : Constraint p) : Option (Constraint p) :=
  if c.contains_var v ∧ c.degree_for_var v = 1 then
    (substScan v expression c.terms).bind fun extra_and_kept => do
      let new ← extra_and_kept.1.foldlM
        (fun new el => do
          let n ← new.add el
          if n.degree ≤ 2 then some n else none)
        (Constraint.mk extra_and_kept.2)
      new.normalize
  else none

/-! ## Concrete example inputs (used by witnesses and counterexamples) -/

/-- A concrete proof with two skeleton words and one query word. -/
def examplePr : Proof := ⟨fun _ => [10, 11], [[12]]⟩

/-- Metadata with 32 registers and a single log-23 proof. -/
def exampleLog23Metadata : ProofMetadata :=
  ⟨List.replicate 32 ⟨7, 5⟩, 0, 0, 1, [], none⟩

/-- A proof list holding one log-23 proof. -/
def exampleLog23ProofList : ProofList := ⟨[], [], [examplePr], []⟩

/-- An ISA environment with one allowed delegation type for the reduced
machine. -/
def exampleIsaEnv : IsaEnv := ⟨[1991], []⟩

/-- Metadata with 32 registers and no proofs at all. -/
def exampleZeroMetadata : ProofMetadata :=
  ⟨List.replicate 32 ⟨0, 0⟩, 0, 0, 0, [], none⟩

/-- An empty proof list. -/
def exampleEmptyProofList : ProofList := ⟨[], [], [], []⟩

instance fact_prime_five : Fact (Nat.Prime 5) := ⟨by norm_num⟩

end Airbender

namespace Airbender

/-! ## Theorems: recursion strategy planner -/

/-- C1, counterexample. For `UseReducedLog23MachineMultiple`, metadata
with one log-23 proof and no delegation proofs at `proof_level = 0`: the
code returns `false` (it always runs a second repetition), while the
claim demands `true` exactly at the top level, so the claimed equivalence
fails at this input. -/
theorem finish_second_recursion_layer_claim_false :
    ¬ ((RecursionStrategy.UseReducedLog23MachineMultiple.finish_second_recursion_layer
          ⟨[], 0, 0, 1, [], none⟩ 0 = some true) ↔
        (0 = 0 ∧ (⟨[], 0, 0, 1, [], none⟩ : ProofMetadata).reduced_log_23_proof_count ≤ 1 ∧
          ∀ x ∈ (⟨[], 0, 0, 1, [], none⟩ : ProofMetadata).delegation_proof_count,
            x.2 ≤ 1)) := by
  decide

/-- C1, amended. `finish_second_recursion_layer` returns `true` for
`UseReducedLog23Machine` exactly when `proof_level = 0` and
`reduced_log_23_proof_count = 1` (asserting both, so it never returns
`false`); for the other two strategies it returns `true` iff
`proof_level ≠ 0`, at most one log-23 proof remains, and every per-type
delegation proof count is at most 1. -/
theorem finish_second_recursion_layer_spec (m : ProofMetadata) (l : Nat) :
    (RecursionStrategy.UseReducedLog23Machine.finish_second_recursion_layer m l =
        some true ↔ (l = 0 ∧ m.reduced_log_23_proof_count = 1)) ∧
    (RecursionStrategy.UseReducedLog23Machine.finish_second_recursion_layer m l ≠
        some false) ∧
    (RecursionStrategy.UseReducedLog23MachineMultiple.finish_second_recursion_layer m l =
        some true ↔
      (l ≠ 0 ∧ m.reduced_log_23_proof_count ≤ 1 ∧
        ∀ x ∈ m.delegation_proof_count, x.2 ≤ 1)) ∧
    (RecursionStrategy.UseReducedLog23MachineOnly.finish_second_recursion_layer m l =
        some true ↔
      (l ≠ 0 ∧ m.reduced_log_23_proof_count ≤ 1 ∧
        ∀ x ∈ m.delegation_proof_count, x.2 ≤ 1)) := by
  refine ⟨?_, ?_, ?_, ?_⟩ <;>
    simp only [RecursionStrategy.finish_second_recursion_layer]
  · split <;> rename_i h1
    · split <;> rename_i h2 <;> simp [h1, h2]
    · simp [h1]
  · split <;> rename_i h1
    · split <;> simp
    · simp
  · simp only [Option.some_inj, Bool.not_eq_true', Bool.or_eq_false_iff,
      decide_eq_false_iff_not, List.any_eq_false, not_lt, decide_eq_true_eq]
    constructor
    · rintro ⟨⟨h1, h2⟩, h3⟩
      exact ⟨h3, h1, h2⟩
    · rintro ⟨h3, h1, h2⟩
      exact ⟨⟨h1, h2⟩, h3⟩
  · simp only [Option.some_inj, Bool.not_eq_true', Bool.or_eq_false_iff,
      decide_eq_false_iff_not, List.any_eq_false, not_lt, decide_eq_true_eq]
    constructor
    · rintro ⟨⟨h1, h2⟩, h3⟩
      exact ⟨h3, h1, h2⟩
    · rintro ⟨h3, h1, h2⟩
      exact ⟨⟨h1, h2⟩, h3⟩

/-- C8. `switch_to_second_recursion_layer` is true iff the first-layer
thresholds are not exceeded: at most 2 reduced proofs and 1 delegation
proof per type for `UseReducedLog23Machine`, at most 5 and 2 for
`UseReducedLog23MachineMultiple`, and always for
`UseReducedLog23MachineOnly`. -/
theorem switch_to_second_recursion_layer_spec (m : ProofMetadata) :
    (RecursionStrategy.UseReducedLog23Machine.switch_to_second_recursion_layer m =
        true ↔
      (m.reduced_proof_count ≤ 2 ∧ ∀ x ∈ m.delegation_proof_count, x.2 ≤ 1)) ∧
    (RecursionStrategy.UseReducedLog23MachineMultiple.switch_to_second_recursion_layer
        m = true ↔
      (m.reduced_proof_count ≤ 5 ∧ ∀ x ∈ m.delegation_proof_count, x.2 ≤ 2)) ∧
    (RecursionStrategy.UseReducedLog23MachineOnly.switch_to_second_recursion_layer m =
        true) := by
  refine ⟨?_, ?_, ?_⟩ <;>
    simp only [RecursionStrategy.switch_to_second_recursion_layer, Bool.not_eq_true',
      Bool.or_eq_false_iff, decide_eq_false_iff_not, List.any_eq_false, not_lt,
      decide_eq_true_eq, Bool.not_false]

/-! ## Theorems: end-parameter generation -/

/-- C4. With strategy `UseReducedLog23Machine`, universal verifier, no
recompute: the aux values are the chain encoding of the zero digest, the
base binary's Standard-machine end parameters and the universal circuit
verifier's vk params, and the end params are the universal circuit log-23
verifier's vk params. -/
theorem generate_constants_for_binary_log23_universal_cached
    (env : EndParamsEnv) (base_layer_bin : List Nat) :
    generate_constants_for_binary env base_layer_bin .UseReducedLog23Machine true
        false =
      some (env.universal_circuit_log_23_verifier_vk_params,
        env.compute_chain_encoding
          [zeroDigest, env.generate_params_for_binary base_layer_bin .Standard,
            env.universal_circuit_verifier_vk_params]) := rfl

/-! ## Theorems: verifier oracle encoder -/

/-- C10. When all three layer proof counts are zero both oracle encoders
panic (the `"No proofs"` and `"Final proofs are no longer supported"`
panics), and when both `basic_proof_count` and `reduced_proof_count` are
positive the `assert_eq!(reduced_proof_count, 0)` makes them panic as
well. -/
theorem generate_oracle_data_no_proofs_panics (env : IsaEnv)
    (metadata : ProofMetadata) (proofs : ProofList)
    (h : (metadata.basic_proof_count = 0 ∧ metadata.reduced_proof_count = 0 ∧
          metadata.reduced_log_23_proof_count = 0) ∨
        (0 < metadata.basic_proof_count ∧ 0 < metadata.reduced_proof_count)) :
    generate_oracle_data_from_metadata_and_proof_list env metadata proofs = none ∧
    generate_oracle_data_for_universal_verifier env metadata proofs = none := by
  have hinner :
      generate_oracle_data_from_metadata_and_proof_list env metadata proofs = none := by
    unfold generate_oracle_data_from_metadata_and_proof_list
    rcases h with ⟨h1, h2, h3⟩ | ⟨h1, h2⟩
    · simp [h1, h2, h3]
    · simp [Nat.pos_iff_ne_zero.mp h1, Nat.pos_iff_ne_zero.mp h2,
        (Nat.pos_iff_ne_zero.mp h2 : metadata.reduced_proof_count ≠ 0)]
  refine ⟨hinner, ?_⟩
  unfold generate_oracle_data_for_universal_verifier
  simp [hinner]

/-- C10, witness at metadata with 32 registers and no proofs. -/
theorem generate_oracle_data_no_proofs_panics_witness :
    ((exampleZeroMetadata.basic_proof_count = 0 ∧
        exampleZeroMetadata.reduced_proof_count = 0 ∧
        exampleZeroMetadata.reduced_log_23_proof_count = 0) ∨
      (0 < exampleZeroMetadata.basic_proof_count ∧
        0 < exampleZeroMetadata.reduced_proof_count)) ∧
    (generate_oracle_data_from_metadata_and_proof_list exampleIsaEnv
        exampleZeroMetadata exampleEmptyProofList = none ∧
      generate_oracle_data_for_universal_verifier exampleIsaEnv exampleZeroMetadata
        exampleEmptyProofList = none) :=
  ⟨Or.inl ⟨rfl, rfl, rfl⟩,
    generate_oracle_data_no_proofs_panics exampleIsaEnv exampleZeroMetadata
      exampleEmptyProofList (Or.inl ⟨rfl, rfl, rfl⟩)⟩

/-- C7. For metadata with only `reduced_log_23_proof_count = 1` (and the
preconditions under which the encoder does not panic: 32 registers, a
proof available, delegation counts only for allowed types), the universal
oracle is the prefix word 5, the 96 register words, the count word 1, the
single flattened proof block, the per-allowed-type delegation sections in
the fixed order of the reduced machine's allowed set, and finally the
previous end-params words. -/
theorem generate_oracle_data_log23_structure (env : IsaEnv)
    (metadata : ProofMetadata) (proofs : ProofList) (pr : Proof) (ps : List Proof)
    (hb : metadata.basic_proof_count = 0) (hr : metadata.reduced_proof_count = 0)
    (hl : metadata.reduced_log_23_proof_count = 1)
    (hreg : metadata.register_values.length = 32)
    (hk : metadata.delegation_proof_count.all
        (fun kv => env.reduced_machine_allowed_delegation_types.contains kv.1) = true)
    (hp : proofs.reduced_log_23_proofs = pr :: ps) :
    generate_oracle_data_for_universal_verifier env metadata proofs =
      some (VerifierCircuitsIdentifiers.RecursionLog23Layer.toWord ::
        (registerOracleWords metadata ++ 1 ::
          (proofOracleWords pr true ++
            delegationSectionWords env.reduced_machine_allowed_delegation_types
              proofs ++
            prevEndParamsWords metadata))) ∧
    (registerOracleWords metadata).length = 96 := by
  constructor
  · have hinner :
        generate_oracle_data_from_metadata_and_proof_list env metadata proofs =
          some (registerOracleWords metadata ++ 1 ::
            (proofOracleWords pr true ++
              delegationSectionWords env.reduced_machine_allowed_delegation_types
                proofs ++
              prevEndParamsWords metadata)) := by
      unfold generate_oracle_data_from_metadata_and_proof_list
      rw [hreg, hb, hr, hl, hp]
      unfold mainProofSectionWords
      rw [if_pos rfl]
      simp only [gt_iff_lt, lt_self_iff_false, if_false, Nat.zero_lt_one, if_true]
      rw [if_pos (by norm_num : (1 : Nat) < 2 ^ 32),
        if_pos (by simp : 1 ≤ (pr :: ps).length)]
      simp only [List.take_succ_cons, List.take_zero, List.flatMap_cons,
        List.flatMap_nil, List.append_nil, Option.map_some', Option.some_bind]
      rw [if_pos hk]
      simp [List.append_assoc]
    unfold generate_oracle_data_for_universal_verifier
    rw [hinner, hb, hr, hl]
    simp [VerifierCircuitsIdentifiers.toWord]
  · unfold registerOracleWords
    rw [List.length_flatMap]
    have h3 : ∀ l : List FinalRegisterValue,
        (l.map (List.length ∘ fun r =>
          ([r.value, (split_timestamp r.last_access_timestamp).1,
            (split_timestamp r.last_access_timestamp).2] : List Nat))).sum =
          3 * l.length := by
      intro l
      induction l with
      | nil => simp
      | cons a l ih => simp only [List.map_cons, List.sum_cons, ih,
          Function.comp_apply, List.length_cons, List.length_nil]; ring
    rw [h3, hreg]

/-- C7, witness at a concrete metadata, proof list and allowed set. -/
theorem generate_oracle_data_log23_structure_witness :
    (exampleLog23Metadata.basic_proof_count = 0 ∧
      exampleLog23Metadata.reduced_proof_count = 0 ∧
      exampleLog23Metadata.reduced_log_23_proof_count = 1 ∧
      exampleLog23Metadata.register_values.length = 32 ∧
      exampleLog23ProofList.reduced_log_23_proofs = examplePr :: []) ∧
    (generate_oracle_data_for_universal_verifier exampleIsaEnv exampleLog23Metadata
        exampleLog23ProofList =
      some (VerifierCircuitsIdentifiers.RecursionLog23Layer.toWord ::
        (registerOracleWords exampleLog23Metadata ++ 1 ::
          (proofOracleWords examplePr true ++
            delegationSectionWords
              exampleIsaEnv.reduced_machine_allowed_delegation_types
              exampleLog23ProofList ++
            prevEndParamsWords exampleLog23Metadata)))) ∧
    (registerOracleWords exampleLog23Metadata).length = 96 :=
  ⟨⟨rfl, rfl, rfl, by decide, rfl⟩,
    (generate_oracle_data_log23_structure exampleIsaEnv exampleLog23Metadata
      exampleLog23ProofList examplePr [] rfl rfl rfl (by decide) (by decide) rfl).1,
    (generate_oracle_data_log23_structure exampleIsaEnv exampleLog23Metadata
      exampleLog23ProofList examplePr [] rfl rfl rfl (by decide) (by decide) rfl).2⟩

/-! ## Theorems: tracing worker -/

theorem countSetup_append (a b : List WorkerResult) :
    countSetupAndTeardownMsgs (a ++ b) =
      countSetupAndTeardownMsgs a + countSetupAndTeardownMsgs b := by
  simp [countSetupAndTeardownMsgs]

theorem countSetup_populated (skip : Nat → Bool) (l : List Nat) :
    countSetupAndTeardownMsgs (l.filterMap fun index =>
      if skip index then none
      else some (WorkerResult.SetupAndTeardownChunk index true)) =
      (l.filter fun i => !skip i).length := by
  induction l with
  | nil => rfl
  | cons a l ih =>
    by_cases h : skip a = true <;>
      simp [countSetupAndTeardownMsgs, h, List.filter_cons] at ih ⊢ <;> omega

/-- The finish phase of Mode A emits one populated `SetupAndTeardownChunk`
for each non-skipped index from `next_no_setup` to `chunks_traced`, then
the terminal result. -/
theorem traceTouchedRamFinish_spec (cpc : Nat) (skip : Nat → Bool)
    (traced next touched : Nat) (msgs : List WorkerResult)
    (h : traceTouchedRamFinish cpc skip traced next touched = some msgs) :
    ∃ body, msgs = body ++ [WorkerResult.RAMTracingResult traced] ∧
      countSetupAndTeardownMsgs msgs =
        ((List.range' next (traced - next)).filter fun i => !skip i).length := by
  simp only [traceTouchedRamFinish] at h
  split at h
  · refine ⟨_, (Option.some_inj.mp h).symm, ?_⟩
    rw [← Option.some_inj.mp h, countSetup_append, countSetup_populated]
    simp [countSetupAndTeardownMsgs]
  · exact absurd h (by simp)

/-- The chunk loop of Mode A: if the worker terminates normally from a
state `(traced, next)`, there is a final chunk count `n > traced` such
that the messages end with `RAMTracingResult n` and the
`SetupAndTeardownChunk` messages are exactly one per non-skipped index in
`[next, n)`. -/
theorem traceTouchedRamLoop_spec (cpc : Nat) (skip : Nat → Bool) :
    ∀ (obs : List ChunkObs) (traced next : Nat) (msgs : List WorkerResult),
      next ≤ traced →
      traceTouchedRamLoop cpc skip obs traced next = some msgs →
      ∃ n body, traced < n ∧
        msgs = body ++ [WorkerResult.RAMTracingResult n] ∧
        countSetupAndTeardownMsgs msgs =
          ((List.range' next (n - next)).filter fun i => !skip i).length := by
  intro obs
  induction obs with
  | nil =>
    intro traced next msgs _ h
    exact absurd h (by simp [traceTouchedRamLoop])
  | cons o rest ih =>
    intro traced next msgs hle h
    unfold traceTouchedRamLoop at h
    by_cases hEm : div_ceil o.touched_ram_cells_count cpc < traced + 1 - next
    · rw [if_pos hEm, Option.map_eq_some'] at h
      obtain ⟨tail, hEq, hmsgs⟩ := h
      have htail : ∃ n body, traced + 1 ≤ n ∧
          tail = body ++ [WorkerResult.RAMTracingResult n] ∧
          countSetupAndTeardownMsgs tail =
            ((List.range' (next + 1) (n - (next + 1))).filter fun i => !skip i).length := by
        by_cases hfin : o.finished = true
        · rw [if_pos hfin] at hEq
          obtain ⟨body, hbody, hcount⟩ :=
            traceTouchedRamFinish_spec cpc skip (traced + 1) (next + 1) _ _ hEq
          exact ⟨traced + 1, body, Nat.le_refl _, hbody, hcount⟩
        · rw [if_neg hfin] at hEq
          obtain ⟨n, body, hn, hbody, hcount⟩ :=
            ih (traced + 1) (next + 1) _ (by omega) hEq
          exact ⟨n, body, by omega, hbody, hcount⟩
      obtain ⟨n, body, hn, hbody, hcount⟩ := htail
      subst hmsgs
      subst hbody
      refine ⟨n, _ ++ body, by omega, by rw [List.append_assoc], ?_⟩
      rw [countSetup_append, hcount]
      have hsub : n - next = (n - (next + 1)) + 1 := by omega
      rw [hsub, List.range'_succ, List.filter_cons]
      by_cases hskip : skip next = true <;>
        simp [hskip, countSetupAndTeardownMsgs] <;> omega
    · rw [if_neg hEm] at h
      by_cases hfin : o.finished = true
      · rw [if_pos hfin] at h
        obtain ⟨body, hbody, hcount⟩ :=
          traceTouchedRamFinish_spec cpc skip (traced + 1) next _ _ h
        exact ⟨traced + 1, body, Nat.lt_succ_self traced, hbody, hcount⟩
      · rw [if_neg hfin] at h
        obtain ⟨n, body, hn, hbody, hcount⟩ := ih (traced + 1) next _ (by omega) h
        exact ⟨n, body, by omega, hbody, hcount⟩

/-- C5, counterexample. One executed chunk that touched
`cycles_per_chunk` cells, with chunk 0 in the skip set: the run reaches
the end reporting `chunks_traced_count = 1` while zero
`SetupAndTeardownChunk` messages were sent. -/
theorem trace_touched_ram_claim_false :
    trace_touched_ram 2 (fun i => i == 0) [⟨true, 2⟩] =
        some [WorkerResult.RAMTracingResult 1] ∧
      countSetupAndTeardownMsgs [WorkerResult.RAMTracingResult 1] = 0 ∧ (0 : Nat) ≠ 1 := by
  decide

/-- C5, amended. In any terminating Mode A run the number of
`SetupAndTeardownChunk` messages (populated or `chunk = None`) equals the
number of chunk indices below the reported `chunks_traced_count` that are
not in the skip set; with an empty skip set it equals
`chunks_traced_count` itself, as the original claim states. -/
theorem trace_touched_ram_message_count (cpc : Nat) (skip : Nat → Bool)
    (obs : List ChunkObs) (msgs : List WorkerResult)
    (h : trace_touched_ram cpc skip obs = some msgs) :
    ∃ n body, msgs = body ++ [WorkerResult.RAMTracingResult n] ∧
      countSetupAndTeardownMsgs msgs =
        ((List.range n).filter fun i => !skip i).length ∧
      ((∀ i, skip i = false) → countSetupAndTeardownMsgs msgs = n) := by
  obtain ⟨n, body, _, hbody, hcount⟩ :=
    traceTouchedRamLoop_spec cpc skip obs 0 0 msgs (Nat.le_refl 0) h
  refine ⟨n, body, hbody, ?_, ?_⟩
  · rw [hcount, List.range_eq_range']
    simp
  · intro hskip
    rw [hcount]
    have : (List.range' 0 (n - 0)).filter (fun i => !skip i) = List.range' 0 (n - 0) :=
      List.filter_eq_self.mpr (fun a _ => by simp [hskip])
    rw [this]
    simp

/-- C5 amended, witness: a no-skip run of one chunk with one populated
setup/teardown chunk. -/
theorem trace_touched_ram_message_count_witness :
    trace_touched_ram 2 (fun _ : Nat => false) [⟨true, 2⟩] =
        some [WorkerResult.SetupAndTeardownChunk 0 true,
          WorkerResult.RAMTracingResult 1] ∧
      ∃ n body,
        ([WorkerResult.SetupAndTeardownChunk 0 true,
            WorkerResult.RAMTracingResult 1] : List WorkerResult) =
          body ++ [WorkerResult.RAMTracingResult n] ∧
        countSetupAndTeardownMsgs
            [WorkerResult.SetupAndTeardownChunk 0 true,
              WorkerResult.RAMTracingResult 1] =
          ((List.range n).filter fun i => !(fun _ : Nat => false) i).length ∧
        ((∀ i, (fun _ : Nat => false) i = false) →
          countSetupAndTeardownMsgs
              [WorkerResult.SetupAndTeardownChunk 0 true,
                WorkerResult.RAMTracingResult 1] = n) :=
  ⟨by decide,
    trace_touched_ram_message_count 2 (fun _ : Nat => false) [⟨true, 2⟩] _ (by decide)⟩

/-- The chunk loop of Mode B starting at index `k`: the messages are one
`CyclesChunk` per selected, non-skipped index in `[k, k + j + 1)` followed
by the terminal count. -/
theorem traceCyclesLoop_spec (sc si : Nat) (skip : Nat → Bool) :
    ∀ (obs : List Bool) (k : Nat) (msgs : List WorkerResult),
      traceCyclesLoop sc si skip obs k = some msgs →
      ∃ j, j < obs.length ∧
        msgs = ((List.range' k (j + 1)).filter
            (fun i => decide (i % sc = si) && !skip i)).map WorkerResult.CyclesChunk ++
          [WorkerResult.CyclesTracingResult (k + j + 1)] := by
  intro obs
  induction obs with
  | nil =>
    intro k msgs h
    exact absurd h (by simp [traceCyclesLoop])
  | cons finished rest ih =>
    intro k msgs h
    unfold traceCyclesLoop at h
    by_cases hsc : sc = 0
    · rw [if_pos hsc] at h
      exact absurd h (by simp)
    rw [if_neg hsc, Option.map_eq_some'] at h
    obtain ⟨tail, hEq, hmsgs⟩ := h
    have hbool : ∀ b : Bool,
        (decide (k % sc = si) && !skip k) = b ↔
          ((k % sc = si ∧ ¬skip k) ↔ b = true) := by
      intro b
      cases b <;> simp [Bool.and_eq_true, decide_eq_true_eq, Bool.not_eq_true',
        Bool.and_eq_false_iff] <;> tauto
    by_cases hfin : finished = true
    · rw [if_pos hfin, Option.some_inj] at hEq
      refine ⟨0, by simp, ?_⟩
      subst hmsgs
      rw [← hEq, List.range'_one, List.filter_cons]
      by_cases hc : (k % sc = si ∧ ¬skip k)
      · rw [if_pos hc, if_pos ((hbool true).mpr (by simpa using hc))]
        simp
      · rw [if_neg hc]
        rw [if_neg (by rw [Bool.not_eq_true, hbool false]; simpa using hc)]
        simp
    · rw [if_neg hfin] at hEq
      obtain ⟨j, hj, htail⟩ := ih (k + 1) _ hEq
      refine ⟨j + 1, by simpa using Nat.succ_lt_succ hj, ?_⟩
      subst hmsgs
      subst htail
      conv_rhs => rw [List.range'_succ, List.filter_cons]
      have harith : k + 1 + j + 1 = k + (j + 1) + 1 := by omega
      by_cases hc : (k % sc = si ∧ ¬skip k)
      · rw [if_pos hc, if_pos ((hbool true).mpr (by simpa using hc))]
        simp [harith]
      · rw [if_neg hc]
        rw [if_neg (by rw [Bool.not_eq_true, hbool false]; simpa using hc)]
        simp [harith]

/-- C6. In a terminating Mode B run with `n` executed chunks, a
`CyclesChunk` with index `i` is emitted exactly when `i < n`,
`i % split_count = split_index` and `(Main(circuit_type), i)` is not in
the skip set; the message stream is those chunks in index order followed
by a single terminal `CyclesTracingResult n`. -/
theorem trace_cycles_spec (sc si : Nat) (skip : Nat → Bool) (obs : List Bool)
    (msgs : List WorkerResult) (h : trace_cycles sc si skip obs = some msgs) :
    ∃ n, 0 < n ∧ n ≤ obs.length ∧
      msgs = ((List.range n).filter
          (fun i => decide (i % sc = si) && !skip i)).map WorkerResult.CyclesChunk ++
        [WorkerResult.CyclesTracingResult n] ∧
      ∀ i, WorkerResult.CyclesChunk i ∈ msgs ↔
        (i < n ∧ i % sc = si ∧ skip i = false) := by
  obtain ⟨j, hj, hmsgs⟩ := traceCyclesLoop_spec sc si skip obs 0 msgs h
  have hrange : List.range' 0 (j + 1) = List.range (j + 1) :=
    (List.range_eq_range' (j + 1)).symm
  rw [hmsgs, hrange, Nat.zero_add]
  refine ⟨j + 1, Nat.succ_pos j, hj, rfl, ?_⟩
  intro i
  constructor
  · intro hm
    rcases List.mem_append.mp hm with hm | hm
    · obtain ⟨a, ha, hchunk⟩ := List.mem_map.mp hm
      obtain ⟨ha1, ha2⟩ := List.mem_filter.mp ha
      cases hchunk
      have ha3 := List.mem_range.mp ha1
      have ha4 := (Bool.and_eq_true _ _).mp ha2
      exact ⟨ha3, by simpa using ha4.1, by simpa using ha4.2⟩
    · simp at hm
  · rintro ⟨h1, h2, h3⟩
    apply List.mem_append.mpr
    left
    apply List.mem_map.mpr
    exact ⟨i, List.mem_filter.mpr ⟨List.mem_range.mpr h1, by simp [h2, h3]⟩, rfl⟩

/-- C6, witness: split 2/1 over four chunks with no skips. -/
theorem trace_cycles_spec_witness :
    trace_cycles 2 1 (fun _ : Nat => false) [false, false, false, true] =
        some [WorkerResult.CyclesChunk 1, WorkerResult.CyclesChunk 3,
          WorkerResult.CyclesTracingResult 4] ∧
      ∃ n, 0 < n ∧ n ≤ ([false, false, false, true] : List Bool).length ∧
        ([WorkerResult.CyclesChunk 1, WorkerResult.CyclesChunk 3,
            WorkerResult.CyclesTracingResult 4] : List WorkerResult) =
          ((List.range n).filter
              (fun i => decide (i % 2 = 1) && !(fun _ : Nat => false) i)).map
            WorkerResult.CyclesChunk ++
          [WorkerResult.CyclesTracingResult n] ∧
        ∀ i, WorkerResult.CyclesChunk i ∈
            ([WorkerResult.CyclesChunk 1, WorkerResult.CyclesChunk 3,
              WorkerResult.CyclesTracingResult 4] : List WorkerResult) ↔
          (i < n ∧ i % 2 = 1 ∧ (fun _ : Nat => false) i = false) :=
  ⟨by decide,
    trace_cycles_spec 2 1 (fun _ : Nat => false) [false, false, false, true] _
      (by decide)⟩

end Airbender

namespace Airbender

/-! ## Theorems: constraint algebra — comparator facts -/

theorem natCmp_eq_lt {a b : Nat} : natCmp a b = .lt ↔ a < b := by
  unfold natCmp
  split <;> rename_i h1
  · simp [h1]
  · split <;> rename_i h2 <;> simp <;> omega

theorem natCmp_eq_gt {a b : Nat} : natCmp a b = .gt ↔ b < a := by
  unfold natCmp
  split <;> rename_i h1
  · simp; omega
  · split <;> rename_i h2 <;> simp <;> omega

theorem natCmp_eq_eq {a b : Nat} : natCmp a b = .eq ↔ a = b := by
  unfold natCmp
  split <;> rename_i h1
  · simp; omega
  · split <;> rename_i h2 <;> simp <;> omega

theorem natCmp_swap (a b : Nat) : (natCmp a b).swap = natCmp b a := by
  unfold natCmp
  rcases Nat.lt_trichotomy a b with h | h | h
  · simp [h, Nat.lt_asymm h, Ordering.swap]
  · subst h
    simp [Nat.lt_irrefl, Ordering.swap]
  · simp [h, Nat.lt_asymm h, Ordering.swap]

theorem varsCmp_eq_eq : ∀ {l m : List Variable}, varsCmp l m = .eq ↔ l = m := by
  intro l
  induction l with
  | nil => intro m; cases m <;> simp [varsCmp]
  | cons a l ih =>
    intro m
    cases m with
    | nil => simp [varsCmp]
    | cons b m =>
      unfold varsCmp
      rcases h : natCmp a b with _ | _ | _
      · refine iff_of_false (by simp) ?_
        intro habs
        rw [natCmp_eq_lt] at h
        cases habs
        omega
      · rw [natCmp_eq_eq] at h
        subst h
        simp [ih]
      · refine iff_of_false (by simp) ?_
        intro habs
        rw [natCmp_eq_gt] at h
        cases habs
        omega

theorem varsCmp_swap : ∀ (l m : List Variable), (varsCmp l m).swap = varsCmp m l := by
  intro l
  induction l with
  | nil => intro m; cases m <;> simp [varsCmp, Ordering.swap]
  | cons a l ih =>
    intro m
    cases m with
    | nil => simp [varsCmp, Ordering.swap]
    | cons b m =>
      unfold varsCmp
      rcases h : natCmp a b with _ | _ | _ <;>
        rw [← natCmp_swap a b, h]
      · simp [Ordering.swap]
      · simp only [Ordering.swap]
        exact ih m
      · simp [Ordering.swap]

theorem varsCmp_le_trans :
    ∀ {l m k : List Variable}, varsCmp l m ≠ .gt → varsCmp m k ≠ .gt →
      varsCmp l k ≠ .gt := by
  intro l
  induction l with
  | nil =>
    intro m k _ _
    cases k <;> simp [varsCmp]
  | cons a l ih =>
    intro m k h1 h2
    cases m with
    | nil => exact absurd (show varsCmp (a :: l) [] = .gt from rfl) h1
    | cons b m =>
      cases k with
      | nil => exact absurd (show varsCmp (b :: m) [] = .gt from rfl) h2
      | cons c k =>
        unfold varsCmp at h1 h2 ⊢
        rcases hab : natCmp a b with _ | _ | _ <;> rw [hab] at h1 <;>
          rcases hbc : natCmp b c with _ | _ | _ <;> rw [hbc] at h2
        · rw [natCmp_eq_lt] at hab hbc
          rw [natCmp_eq_lt.mpr (by omega)]
          simp
        · rw [natCmp_eq_lt] at hab
          rw [natCmp_eq_eq] at hbc
          subst hbc
          rw [natCmp_eq_lt.mpr hab]
          simp
        · exact absurd rfl h2
        · rw [natCmp_eq_eq] at hab
          subst hab
          rw [natCmp_eq_lt] at hbc
          rw [natCmp_eq_lt.mpr hbc]
          simp
        · rw [natCmp_eq_eq] at hab hbc
          subst hab
          subst hbc
          rw [natCmp_eq_eq.mpr rfl]
          exact ih h1 h2
        · exact absurd rfl h2
        · exact absurd rfl h1
        · exact absurd rfl h1
        · exact absurd rfl h1

theorem Term.cmp_swap {p : ℕ} (s o : Term p) :
    (Term.cmp s o).swap = Term.cmp o s := by
  unfold Term.cmp
  rcases hd : natCmp o.degree s.degree with _ | _ | _ <;>
    rw [← natCmp_swap o.degree s.degree, hd]
  · rfl
  · simp only [Ordering.swap, ne_eq, not_true_eq_false, if_false]
    cases s with
    | Constant cs =>
      cases o with
      | Constant co =>
        dsimp only
        rw [← natCmp_swap cs.val co.val]
        rcases natCmp cs.val co.val with _ | _ | _ <;> rfl
      | Expression co vo => rfl
    | Expression cs vs =>
      cases o with
      | Constant co => rfl
      | Expression co vo =>
        dsimp only
        rcases hv : varsCmp vs vo with _ | _ | _ <;>
          rw [← varsCmp_swap vs vo, hv]
        · rfl
        · simp only [Ordering.swap, ne_eq, not_true_eq_false, if_false]
          rw [← natCmp_swap cs.val co.val]
          rcases natCmp cs.val co.val with _ | _ | _ <;> rfl
        · rfl
  · rfl

theorem Term.le_degree {p : ℕ} {s o : Term p} (h : Term.le s o = true) :
    o.degree ≤ s.degree := by
  by_contra hlt
  have hgt : natCmp o.degree s.degree = .gt := natCmp_eq_gt.mpr (by omega)
  unfold Term.le Term.cmp at h
  rw [hgt] at h
  simp at h

theorem Term.le_total {p : ℕ} (a b : Term p) :
    Term.le a b || Term.le b a := by
  unfold Term.le
  rcases h : Term.cmp a b with _ | _ | _ <;>
    rw [← Term.cmp_swap a b, h] <;> simp [Ordering.swap]

theorem natCmp_ne_gt {a b : Nat} : (¬natCmp a b = .gt) ↔ a ≤ b := by
  rw [← Ne, ne_eq, natCmp_eq_gt]
  omega

theorem Term.le_trans {p : ℕ} (a b c : Term p)
    (hab : Term.le a b = true) (hbc : Term.le b c = true) :
    Term.le a c = true := by
  have hd1 : b.degree ≤ a.degree := Term.le_degree hab
  have hd2 : c.degree ≤ b.degree := Term.le_degree hbc
  unfold Term.le at hab hbc ⊢
  rw [decide_eq_true_eq] at hab hbc
  rw [decide_eq_true_eq]
  rcases hdc : natCmp c.degree a.degree with _ | _ | _
  · unfold Term.cmp
    rw [hdc]
    simp
  · have hca : c.degree = a.degree := natCmp_eq_eq.mp hdc
    have hba : b.degree = a.degree := by omega
    have hcb : c.degree = b.degree := by omega
    unfold Term.cmp at hab hbc ⊢
    rw [natCmp_eq_eq.mpr hba] at hab
    rw [natCmp_eq_eq.mpr hcb] at hbc
    rw [hdc]
    simp only [ne_eq, not_true_eq_false, if_false] at hab hbc ⊢
    cases a with
    | Constant ca =>
      cases c with
      | Constant cc =>
        cases b with
        | Constant cb =>
          dsimp only at hab hbc ⊢
          rw [natCmp_ne_gt] at hab hbc ⊢
          omega
        | Expression cb vb =>
          dsimp only at hbc
          exact absurd rfl hbc
      | Expression cc vc =>
        dsimp only
        simp
    | Expression ca va =>
      cases b with
      | Constant cb =>
        dsimp only at hab
        exact absurd rfl hab
      | Expression cb vb =>
        cases c with
        | Constant cc =>
          dsimp only at hbc
          exact absurd rfl hbc
        | Expression cc vc =>
          dsimp only at hab hbc ⊢
          rcases hv1 : varsCmp va vb with _ | _ | _ <;> rw [hv1] at hab <;>
            rcases hv2 : varsCmp vb vc with _ | _ | _ <;> rw [hv2] at hbc
          · have hne : ¬varsCmp va vc = .gt :=
              @varsCmp_le_trans va vb vc (by simp [hv1]) (by simp [hv2])
            have hneq : ¬varsCmp va vc = .eq := by
              intro habs
              rw [varsCmp_eq_eq] at habs
              subst habs
              rw [← varsCmp_swap va vb, hv1] at hv2
              cases hv2
            rw [if_pos hneq]
            exact hne
          · rw [varsCmp_eq_eq] at hv2
            subst hv2
            rw [hv1]
            simp
          · simp at hbc
          · rw [varsCmp_eq_eq] at hv1
            subst hv1
            rw [hv2]
            simp
          · rw [varsCmp_eq_eq] at hv1
            rw [varsCmp_eq_eq] at hv2
            subst hv1
            subst hv2
            rw [if_neg (by simp [varsCmp_eq_eq])]
            rw [if_neg (by simp)] at hab hbc
            rw [natCmp_ne_gt] at hab hbc ⊢
            omega
          · simp at hbc
          · simp at hab
          · simp at hab
          · simp at hab
  · rw [natCmp_eq_gt] at hdc
    omega

/-! ## Theorems: constraint algebra — term lemmas -/

theorem Term.sorted_insertionSortLe {p : ℕ} (ts : List (Term p)) :
    (ts.insertionSort Term.leP).Pairwise fun a b => Term.le a b = true := by
  haveI htot : IsTotal (Term p) Term.leP := ⟨fun a b => by
    have h := Term.le_total a b
    rw [Bool.or_eq_true] at h
    exact h⟩
  haveI htr : IsTrans (Term p) Term.leP :=
    ⟨fun a b c hab hbc => Term.le_trans a b c hab hbc⟩
  exact List.Pairwise.imp (fun hab => hab) (List.sorted_insertionSort Term.leP ts)

theorem Term.insertionSortLe_of_sorted {p : ℕ} {ts : List (Term p)}
    (h : ts.Pairwise fun a b => Term.le a b = true) :
    ts.insertionSort Term.leP = ts :=
  List.Sorted.insertionSort_eq (List.Pairwise.imp (fun hab => hab) h)

theorem natLeB_trans (a b c : Nat) (h1 : (decide (a ≤ b) : Bool) = true)
    (h2 : (decide (b ≤ c) : Bool) = true) : (decide (a ≤ c) : Bool) = true := by
  rw [decide_eq_true_eq] at h1 h2 ⊢
  omega

theorem natLeB_total (a b : Nat) :
    ((decide (a ≤ b) : Bool) || decide (b ≤ a)) = true := by
  rcases Nat.le_total a b with h | h <;> simp [h]

theorem varsMergeSort_idem (vs : List Variable) :
    ((vs.insertionSort fun a b => a ≤ b).insertionSort fun a b => a ≤ b) =
      vs.insertionSort fun a b => a ≤ b :=
  List.Sorted.insertionSort_eq (List.sorted_insertionSort _ vs)

theorem Term.normalize_idem {p : ℕ} (t : Term p) :
    t.normalize.normalize = t.normalize := by
  cases t with
  | Constant c => rfl
  | Expression c vs =>
    unfold Term.normalize
    dsimp only
    by_cases hc : c = 0
    · simp [hc]
    · rw [if_neg hc]
      dsimp only
      rw [if_neg hc, varsMergeSort_idem]

theorem Term.degree_normalize_le {p : ℕ} (t : Term p) :
    t.normalize.degree ≤ t.degree := by
  cases t with
  | Constant c => exact Nat.le_refl _
  | Expression c vs =>
    unfold Term.normalize
    dsimp only
    by_cases hc : c = 0
    · simp [hc, Term.degree]
    · simp [hc, Term.degree, List.length_insertionSort]

theorem Term.wf_normalize {p : ℕ} {t : Term p} (h : t.wf) : t.normalize.wf := by
  cases t with
  | Constant c => trivial
  | Expression c vs =>
    unfold Term.normalize
    dsimp only
    by_cases hc : c = 0
    · simp [hc, Term.wf]
    · simp only [hc, if_false]
      intro habs
      have : vs.length = 0 := by
        rw [← List.length_insertionSort (fun a b => a ≤ b) vs, habs]
        rfl
      exact h (List.eq_nil_of_length_eq_zero this)

theorem Term.normalized_zero_eq {p : ℕ} {t : Term p} (hn : t.normalize = t)
    (hz : t.is_zero = true) : t = .Constant 0 := by
  cases t with
  | Constant c =>
    unfold Term.is_zero at hz
    rw [decide_eq_true_eq] at hz
    rw [hz]
  | Expression c vs =>
    unfold Term.is_zero at hz
    rw [decide_eq_true_eq] at hz
    unfold Term.normalize at hn
    dsimp only at hn
    rw [if_pos hz] at hn
    cases hn

theorem Term.normalized_expression {p : ℕ} {c : ZMod p} {vs : List Variable}
    (hn : (Term.Expression c vs).normalize = .Expression c vs) :
    c ≠ 0 ∧ (vs.insertionSort fun a b => a ≤ b) = vs := by
  unfold Term.normalize at hn
  dsimp only at hn
  by_cases hc : c = 0
  · rw [if_pos hc] at hn
    cases hn
  · rw [if_neg hc] at hn
    injection hn with h1 h2
    exact ⟨hc, h2⟩

theorem foldl_max_le {α : Type} (f : α → Nat) :
    ∀ (l : List α) (init d : Nat),
      l.foldl (fun cur t => max cur (f t)) init ≤ d ↔
        init ≤ d ∧ ∀ t ∈ l, f t ≤ d := by
  intro l
  induction l with
  | nil => simp
  | cons a l ih =>
    intro init d
    rw [List.foldl_cons, ih]
    simp only [max_le_iff, List.forall_mem_cons]
    tauto

theorem degreeOfList_le_iff {p : ℕ} (ts : List (Term p)) (d : Nat) :
    degreeOfList ts ≤ d ↔ ∀ t ∈ ts, t.degree ≤ d := by
  unfold degreeOfList
  rw [foldl_max_le]
  simp

theorem degree_le_degreeOfList {p : ℕ} {t : Term p} {ts : List (Term p)}
    (h : t ∈ ts) : t.degree ≤ degreeOfList ts :=
  (degreeOfList_le_iff ts _).mp (Nat.le_refl _) t h

theorem coeffAt_nil {p : ℕ} (m : Multiset Variable) :
    coeffAt ([] : List (Term p)) m = 0 := rfl

theorem coeffAt_cons {p : ℕ} (t : Term p) (ts : List (Term p))
    (m : Multiset Variable) :
    coeffAt (t :: ts) m = termContrib t m + coeffAt ts m := by
  simp [coeffAt]

theorem coeffAt_append {p : ℕ} (ts us : List (Term p)) (m : Multiset Variable) :
    coeffAt (ts ++ us) m = coeffAt ts m + coeffAt us m := by
  simp [coeffAt]

theorem coeffAt_perm {p : ℕ} {ts us : List (Term p)} (h : ts.Perm us)
    (m : Multiset Variable) : coeffAt ts m = coeffAt us m :=
  (h.map fun t => termContrib t m).sum_eq

theorem termContrib_normalize {p : ℕ} (t : Term p) (m : Multiset Variable) :
    termContrib t.normalize m = termContrib t m := by
  cases t with
  | Constant c => rfl
  | Expression c vs =>
    unfold Term.normalize
    dsimp only
    by_cases hc : c = 0
    · rw [if_pos hc]
      subst hc
      unfold termContrib Term.monom Term.get_coef
      dsimp only
      by_cases h1 : (0 : Multiset Variable) = m <;>
        by_cases h2 : ((vs : List Variable) : Multiset Variable) = m <;>
        simp [h1, h2]
    · rw [if_neg hc]
      unfold termContrib Term.monom
      dsimp only
      have hperm : ((vs.insertionSort fun a b => a ≤ b : List Variable) :
          Multiset Variable) = (vs : Multiset Variable) :=
        Quot.sound (List.perm_insertionSort _ vs)
      rw [hperm]
      rfl

theorem coeffAt_map_normalize {p : ℕ} (ts : List (Term p)) (m : Multiset Variable) :
    coeffAt (ts.map Term.normalize) m = coeffAt ts m := by
  induction ts with
  | nil => rfl
  | cons t ts ih => simp [coeffAt_cons, termContrib_normalize, ih]

theorem termContrib_scale {p : ℕ} (t : Term p) (f : ZMod p) (m : Multiset Variable) :
    termContrib (t.scale f) m = termContrib t m * f := by
  cases t <;> simp [termContrib, Term.scale, Term.monom, Term.get_coef, ite_mul]

theorem coeffAt_scaleList {p : ℕ} (ts : List (Term p)) (f : ZMod p)
    (m : Multiset Variable) :
    coeffAt (ts.map fun t => t.scale f) m = coeffAt ts m * f := by
  induction ts with
  | nil => simp [coeffAt_nil]
  | cons t ts ih => simp [coeffAt_cons, termContrib_scale, ih, add_mul]

theorem Term.combine_eq_some {p : ℕ} {t o merged : Term p}
    (h : t.combine o = some merged) :
    (∃ c1 c2, t = .Constant c1 ∧ o = .Constant c2 ∧
      merged = .Constant (c1 + c2)) ∨
    (∃ c1 c2 vs, t = .Expression c1 vs ∧ o = .Expression c2 vs ∧
      merged = .Expression (c1 + c2) vs) := by
  unfold Term.combine at h
  split at h
  · cases t with
    | Constant c1 =>
      cases o with
      | Constant c2 =>
        left
        exact ⟨c1, c2, rfl, rfl, (Option.some_inj.mp h).symm⟩
      | Expression c2 vs2 => exact absurd h (by simp)
    | Expression c1 vs1 =>
      cases o with
      | Constant c2 => exact absurd h (by simp)
      | Expression c2 vs2 =>
        dsimp only at h
        split at h <;> rename_i hvs
        · right
          exact ⟨c1, c2, vs1, rfl, by rw [hvs], (Option.some_inj.mp h).symm⟩
        · exact absurd h (by simp)
  · exact absurd h (by simp)

theorem Term.constant_combine_constant {p : ℕ} (c1 c2 : ZMod p) :
    (Term.Constant c1).combine (.Constant c2) = some (.Constant (c1 + c2)) := rfl

theorem Term.combine_some_symm {p : ℕ} {a b m : Term p}
    (h : a.combine b = some m) : ∃ m2, b.combine a = some m2 := by
  rcases Term.combine_eq_some h with ⟨c1, c2, rfl, rfl, _⟩ | ⟨c1, c2, vs, rfl, rfl, _⟩
  · exact ⟨_, Term.constant_combine_constant c2 c1⟩
  · exact ⟨.Expression (c2 + c1) vs, by simp [Term.combine, Term.degree]⟩

theorem Term.combine_none_symm {p : ℕ} {a b : Term p}
    (h : a.combine b = none) : b.combine a = none := by
  rcases hX : b.combine a with _ | m
  · rfl
  · obtain ⟨m2, hm2⟩ := Term.combine_some_symm hX
    rw [h] at hm2
    cases hm2

theorem Term.combine_none_right_congr {p : ℕ} {x : Term p} {c1 c2 : ZMod p}
    {vs : List Variable} (h : x.combine (.Expression c1 vs) = none) :
    x.combine (.Expression c2 vs) = none := by
  rcases hX : x.combine (.Expression c2 vs) with _ | m
  · rfl
  · exfalso
    rcases Term.combine_eq_some hX with ⟨_, _, _, habs, _⟩ | ⟨d1, d2, ws, hx, heq, _⟩
    · cases habs
    · injection heq with h1 h2
      subst h2
      subst hx
      rw [show (Term.Expression d1 vs : Term p).combine (.Expression c1 vs) =
          some (.Expression (d1 + c1) vs) from by
            simp [Term.combine, Term.degree]] at h
      cases h

theorem Term.combine_none_left_congr {p : ℕ} {y : Term p} {c1 c2 : ZMod p}
    {vs : List Variable} (h : (Term.Expression c1 vs).combine y = none) :
    (Term.Expression c2 vs).combine y = none :=
  Term.combine_none_symm
    (Term.combine_none_right_congr (Term.combine_none_symm h))

theorem Term.degree_zero_wf_constant {p : ℕ} {t : Term p} (hw : t.wf)
    (hd : t.degree = 0) : ∃ c, t = .Constant c := by
  cases t with
  | Constant c => exact ⟨c, rfl⟩
  | Expression c vs =>
    exact absurd (List.eq_nil_of_length_eq_zero hd) hw

theorem Term.combine_none_of_degree_ne {p : ℕ} {t o : Term p}
    (h : t.degree ≠ o.degree) : t.combine o = none := by
  unfold Term.combine
  rw [if_neg h]

theorem termContrib_zero {p : ℕ} {t : Term p} (h : t.is_zero = true)
    (m : Multiset Variable) : termContrib t m = 0 := by
  cases t <;>
    simp only [Term.is_zero, decide_eq_true_eq] at h <;>
    simp [termContrib, Term.get_coef, h]

/-! ## Theorems: constraint algebra — the like-term folding loop -/

theorem termContrib_combine {p : ℕ} {t o merged : Term p}
    (h : t.combine o = some merged) (m : Multiset Variable) :
    termContrib merged.normalize m = termContrib t m + termContrib o m := by
  rw [termContrib_normalize]
  rcases Term.combine_eq_some h with ⟨c1, c2, rfl, rfl, rfl⟩ |
    ⟨c1, c2, vs, rfl, rfl, rfl⟩ <;>
    · unfold termContrib Term.monom Term.get_coef
      dsimp only
      split <;> simp

theorem insertCombine_coeffAt {p : ℕ} (el : Term p) :
    ∀ (acc : List (Term p)) (m : Multiset Variable),
      coeffAt (insertCombine acc el) m = coeffAt acc m + termContrib el m := by
  intro acc
  induction acc with
  | nil =>
    intro m
    simp [insertCombine, coeffAt_cons, coeffAt_nil]
  | cons a rest ih =>
    intro m
    unfold insertCombine
    rcases hc : a.combine el with _ | merged
    · rw [coeffAt_cons, coeffAt_cons, ih]
      ring
    · rw [coeffAt_cons, coeffAt_cons, termContrib_combine hc]
      ring

theorem combineFold_coeffAt {p : ℕ} :
    ∀ (ts acc : List (Term p)) (m : Multiset Variable),
      coeffAt (ts.foldl insertCombine acc) m = coeffAt acc m + coeffAt ts m := by
  intro ts
  induction ts with
  | nil =>
    intro acc m
    simp [coeffAt_nil]
  | cons t ts ih =>
    intro acc m
    rw [List.foldl_cons, ih, insertCombine_coeffAt, coeffAt_cons]
    ring

theorem combineLikeTerms_coeffAt {p : ℕ} (ts : List (Term p))
    (m : Multiset Variable) : coeffAt (combineLikeTerms ts) m = coeffAt ts m := by
  unfold combineLikeTerms
  rw [combineFold_coeffAt, coeffAt_nil, zero_add]

theorem coeffAt_filter_nonzero {p : ℕ} (ts : List (Term p))
    (m : Multiset Variable) :
    coeffAt (ts.filter fun t => !t.is_zero) m = coeffAt ts m := by
  induction ts with
  | nil => rfl
  | cons t ts ih =>
    rw [List.filter_cons]
    by_cases hz : t.is_zero = true
    · simp only [hz, Bool.not_true, Bool.false_eq_true, if_false]
      rw [ih, coeffAt_cons, termContrib_zero hz, zero_add]
    · simp only [Bool.not_eq_true] at hz
      simp only [hz, Bool.not_false, if_true]
      rw [coeffAt_cons, coeffAt_cons, ih]

theorem insertCombine_cases {p : ℕ} (el : Term p) :
    ∀ (acc : List (Term p)),
      (insertCombine acc el = acc ++ [el] ∧ ∀ a ∈ acc, a.combine el = none) ∨
      (∃ A1 a merged A2, acc = A1 ++ a :: A2 ∧ a.combine el = some merged ∧
        insertCombine acc el = A1 ++ merged.normalize :: A2 ∧
        ∀ x ∈ A1, x.combine el = none) := by
  intro acc
  induction acc with
  | nil => exact Or.inl ⟨rfl, by simp⟩
  | cons a rest ih =>
    rcases hc : a.combine el with _ | merged
    · rcases ih with ⟨h1, h2⟩ | ⟨A1, b, merged, A2, hacc, hcomb, hres, hpre⟩
      · left
        constructor
        · unfold insertCombine
          rw [hc, h1]
          rfl
        · intro x hx
          rcases List.mem_cons.mp hx with rfl | hx
          · exact hc
          · exact h2 x hx
      · right
        refine ⟨a :: A1, b, merged, A2, by rw [hacc]; rfl, hcomb, ?_, ?_⟩
        · unfold insertCombine
          rw [hc, hres]
          rfl
        · intro x hx
          rcases List.mem_cons.mp hx with rfl | hx
          · exact hc
          · exact hpre x hx
    · right
      refine ⟨[], a, merged, rest, rfl, hc, ?_, by simp⟩
      unfold insertCombine
      rw [hc]
      rfl

theorem mem_filter_nonzero {p : ℕ} {x : Term p} {L : List (Term p)} :
    x ∈ L.filter (fun t => !t.is_zero) ↔ x ∈ L ∧ x.is_zero = false := by
  rw [List.mem_filter]
  simp

theorem constant_zero_is_zero {p : ℕ} : (Term.Constant (0 : ZMod p)).is_zero = true := by
  simp [Term.is_zero]

/-- One step of the like-term folding loop preserves the loop invariants:
the nonzero accumulated terms are pairwise non-combinable, every
accumulated term is normalized, well formed, and `Constant 0` if zero,
any constant that follows another constant in the accumulator is zero,
and a nonzero constant can enter the accumulator only via a degree-zero
element. -/
theorem insertCombine_invariant {p : ℕ} {A : List (Term p)} {el : Term p}
    (hA1 : (A.filter fun t => !t.is_zero).Pairwise fun a b => a.combine b = none)
    (hA2 : ∀ t ∈ A, t.normalize = t)
    (hA2w : ∀ t ∈ A, t.wf)
    (hA3 : ∀ t ∈ A, t.is_zero = true → t = Term.Constant 0)
    (hA5 : A.Pairwise fun a b => a.degree = 0 → b.degree = 0 → b = Term.Constant 0)
    (hel1 : el.normalize = el) (hel2 : el.wf)
    (hconst : el.degree ≠ 0 → ∀ t ∈ A, t.degree = 0 → t.is_zero = true) :
    (((insertCombine A el).filter fun t => !t.is_zero).Pairwise
        fun a b => a.combine b = none) ∧
    (∀ t ∈ insertCombine A el, t.normalize = t) ∧
    (∀ t ∈ insertCombine A el, t.wf) ∧
    (∀ t ∈ insertCombine A el, t.is_zero = true → t = Term.Constant 0) ∧
    ((insertCombine A el).Pairwise
        fun a b => a.degree = 0 → b.degree = 0 → b = Term.Constant 0) ∧
    (∀ t ∈ insertCombine A el, t.degree = 0 → t.is_zero = false →
      (el.degree = 0 ∨ ∃ t0 ∈ A, t0.degree = 0 ∧ t0.is_zero = false)) := by
  rcases insertCombine_cases el A with ⟨hres, hnone⟩ |
    ⟨A1, a, merged, A2, hacc, hcomb, hres, hpre⟩
  · -- el combined with nothing and is appended
    rw [hres]
    refine ⟨?_, ?_, ?_, ?_, ?_, ?_⟩
    · rw [List.filter_append, List.pairwise_append]
      refine ⟨hA1, ?_, ?_⟩
      · by_cases hz : el.is_zero = true <;> simp [List.filter_cons, hz]
      · intro x hx y hy
        have hy2 : y = el := by
          rcases mem_filter_nonzero.mp hy with ⟨hy1, _⟩
          simpa using hy1
        rw [hy2]
        exact hnone x (mem_filter_nonzero.mp hx).1
    · intro t ht
      rcases List.mem_append.mp ht with ht | ht
      · exact hA2 t ht
      · rw [show t = el by simpa using ht]
        exact hel1
    · intro t ht
      rcases List.mem_append.mp ht with ht | ht
      · exact hA2w t ht
      · rw [show t = el by simpa using ht]
        exact hel2
    · intro t ht htz
      rcases List.mem_append.mp ht with ht | ht
      · exact hA3 t ht htz
      · rw [show t = el by simpa using ht] at htz ⊢
        exact Term.normalized_zero_eq hel1 htz
    · rw [List.pairwise_append]
      refine ⟨hA5, by simp, ?_⟩
      intro x hx y hy
      rw [show y = el by simpa using hy]
      intro hxd held
      obtain ⟨cx, rfl⟩ := Term.degree_zero_wf_constant (hA2w x hx) hxd
      obtain ⟨ce, rfl⟩ := Term.degree_zero_wf_constant hel2 held
      have hcc := hnone _ hx
      rw [Term.constant_combine_constant] at hcc
      cases hcc
    · intro t ht htd htz
      rcases List.mem_append.mp ht with ht | ht
      · exact Or.inr ⟨t, ht, htd, htz⟩
      · rw [show t = el by simpa using ht] at htd
        exact Or.inl htd
  · -- el combined into the accumulator entry `a`
    subst hacc
    have hmemA : a ∈ A1 ++ a :: A2 :=
      List.mem_append.mpr (Or.inr (List.mem_cons_self a A2))
    have ha_norm : a.normalize = a := hA2 a hmemA
    have ha_wf : a.wf := hA2w a hmemA
    have hmemA1 : ∀ x ∈ A1, x ∈ A1 ++ a :: A2 := fun x hx =>
      List.mem_append.mpr (Or.inl hx)
    have hmemA2 : ∀ y ∈ A2, y ∈ A1 ++ a :: A2 := fun y hy =>
      List.mem_append.mpr (Or.inr (List.mem_cons_of_mem a hy))
    rw [List.pairwise_append, List.pairwise_cons] at hA5
    obtain ⟨P5_1, ⟨P5_a, P5_2⟩, P5_cross⟩ := hA5
    rw [List.filter_append, List.pairwise_append] at hA1
    obtain ⟨Q1, Q2, Qc⟩ := hA1
    have Q2fa : (A2.filter fun t => !t.is_zero).Pairwise
        (fun a b => a.combine b = none) := by
      rw [List.filter_cons] at Q2
      by_cases hz : a.is_zero = true
      · simpa [hz] using Q2
      · simp only [Bool.not_eq_true] at hz
        simp only [hz, Bool.not_false, if_true, List.pairwise_cons] at Q2
        exact Q2.2
    have Qa2 : a.is_zero = false → ∀ y ∈ A2.filter fun t => !t.is_zero,
        a.combine y = none := by
      intro hz y hy
      rw [List.filter_cons] at Q2
      simp only [hz, Bool.not_false, if_true, List.pairwise_cons] at Q2
      exact Q2.1 y hy
    have Qc2 : ∀ x ∈ A1.filter fun t => !t.is_zero,
        ∀ y ∈ A2.filter fun t => !t.is_zero, x.combine y = none := by
      intro x hx y hy
      refine Qc x hx y ?_
      rw [List.filter_cons]
      by_cases hz : a.is_zero = true
      · simpa [hz] using hy
      · simp only [Bool.not_eq_true] at hz
        simp only [hz, Bool.not_false, if_true]
        exact List.mem_cons_of_mem a hy
    have QcA : ∀ x ∈ A1.filter fun t => !t.is_zero, a.is_zero = false →
        x.combine a = none := by
      intro x hx hz
      refine Qc x hx a ?_
      rw [List.filter_cons]
      simp [hz]
    rw [hres]
    rcases Term.combine_eq_some hcomb with ⟨ca, ce, haEq, helEq, hmEq⟩ |
      ⟨ca, ce, vs, haEq, helEq, hmEq⟩
    · -- both constants
      subst haEq
      subst helEq
      subst hmEq
      refine ⟨?_, ?_, ?_, ?_, ?_, ?_⟩
      · rw [List.filter_append, List.pairwise_append]
        refine ⟨Q1, ?_, ?_⟩
        · rw [List.filter_cons]
          by_cases hmz : (Term.Constant (ca + ce) : Term p).normalize.is_zero = true
          · simp only [hmz, Bool.not_true, Bool.false_eq_true, if_false]
            exact Q2fa
          · simp only [Bool.not_eq_true] at hmz
            simp only [hmz, Bool.not_false, if_true, List.pairwise_cons]
            refine ⟨?_, Q2fa⟩
            intro y hy
            rcases mem_filter_nonzero.mp hy with ⟨hy2, hynz⟩
            by_cases hyd : y.degree = 0
            · exfalso
              have hyC := P5_a y hy2 rfl hyd
              rw [hyC] at hynz
              rw [constant_zero_is_zero] at hynz
              cases hynz
            · refine Term.combine_none_of_degree_ne ?_
              intro habs
              apply hyd
              rw [← habs]
              rfl
        · intro x hx y hy
          rcases mem_filter_nonzero.mp hx with ⟨hx1, hxnz⟩
          rw [List.filter_cons] at hy
          have hym : y = (Term.Constant (ca + ce) : Term p).normalize ∨
              y ∈ A2.filter fun t => !t.is_zero := by
            by_cases hmz : ((Term.Constant (ca + ce) : Term p).normalize).is_zero = true
            · simp only [hmz, Bool.not_true, Bool.false_eq_true, if_false] at hy
              exact Or.inr hy
            · simp only [Bool.not_eq_true] at hmz
              simp only [hmz, Bool.not_false, if_true] at hy
              rcases List.mem_cons.mp hy with rfl | hy
              · exact Or.inl rfl
              · exact Or.inr hy
          rcases hym with rfl | hy2
          · by_cases hxd : x.degree = 0
            · exfalso
              obtain ⟨cx, rfl⟩ := Term.degree_zero_wf_constant (hA2w x (hmemA1 x hx1)) hxd
              have hcc := hpre _ hx1
              rw [Term.constant_combine_constant] at hcc
              cases hcc
            · refine Term.combine_none_of_degree_ne ?_
              intro habs
              apply hxd
              rw [habs]
              rfl
          · exact Qc2 x hx y hy2
      · intro t ht
        rcases List.mem_append.mp ht with ht | ht
        · exact hA2 t (hmemA1 t ht)
        · rcases List.mem_cons.mp ht with rfl | ht
          · exact Term.normalize_idem _
          · exact hA2 t (hmemA2 t ht)
      · intro t ht
        rcases List.mem_append.mp ht with ht | ht
        · exact hA2w t (hmemA1 t ht)
        · rcases List.mem_cons.mp ht with rfl | ht
          · trivial
          · exact hA2w t (hmemA2 t ht)
      · intro t ht htz
        rcases List.mem_append.mp ht with ht | ht
        · exact hA3 t (hmemA1 t ht) htz
        · rcases List.mem_cons.mp ht with rfl | ht
          · exact Term.normalized_zero_eq (Term.normalize_idem _) htz
          · exact hA3 t (hmemA2 t ht) htz
      · rw [List.pairwise_append, List.pairwise_cons]
        refine ⟨P5_1, ⟨?_, P5_2⟩, ?_⟩
        · intro y hy _ hyd
          exact P5_a y hy rfl hyd
        · intro x hx b hb
          rcases List.mem_cons.mp hb with rfl | hb
          · intro hxd _
            exfalso
            obtain ⟨cx, rfl⟩ := Term.degree_zero_wf_constant (hA2w x (hmemA1 x hx)) hxd
            have hcc := hpre _ hx
            rw [Term.constant_combine_constant] at hcc
            cases hcc
          · exact P5_cross x hx b (List.mem_cons_of_mem _ hb)
      · intro t ht htd htz
        exact Or.inl rfl
    · -- both expressions over the same variables
      subst haEq
      subst helEq
      subst hmEq
      have hca : ca ≠ 0 := (Term.normalized_expression ha_norm).1
      have hsort : (vs.insertionSort fun a b => a ≤ b) = vs :=
        (Term.normalized_expression ha_norm).2
      have hvs : vs ≠ [] := ha_wf
      have held : (Term.Expression ce vs : Term p).degree ≠ 0 := by
        simp only [Term.degree]
        intro habs
        exact hvs (List.eq_nil_of_length_eq_zero habs)
      have hnoconst :
          ∀ t ∈ A1 ++ Term.Expression ca vs :: A2, t.degree = 0 → t.is_zero = true := by
        intro t ht htd
        exact hconst held t ht htd
      by_cases hsum : ca + ce = 0
      · -- the merged coefficient cancels: the slot collapses to Constant 0
        have hmC : (Term.Expression (ca + ce) vs : Term p).normalize =
            Term.Constant 0 := by
          unfold Term.normalize
          dsimp only
          rw [if_pos hsum]
        rw [hmC]
        refine ⟨?_, ?_, ?_, ?_, ?_, ?_⟩
        · rw [List.filter_append, List.filter_cons]
          simp only [constant_zero_is_zero, Bool.not_true, Bool.false_eq_true,
            if_false]
          rw [List.pairwise_append]
          exact ⟨Q1, Q2fa, Qc2⟩
        · intro t ht
          rcases List.mem_append.mp ht with ht | ht
          · exact hA2 t (hmemA1 t ht)
          · rcases List.mem_cons.mp ht with rfl | ht
            · rfl
            · exact hA2 t (hmemA2 t ht)
        · intro t ht
          rcases List.mem_append.mp ht with ht | ht
          · exact hA2w t (hmemA1 t ht)
          · rcases List.mem_cons.mp ht with rfl | ht
            · trivial
            · exact hA2w t (hmemA2 t ht)
        · intro t ht htz
          rcases List.mem_append.mp ht with ht | ht
          · exact hA3 t (hmemA1 t ht) htz
          · rcases List.mem_cons.mp ht with rfl | ht
            · rfl
            · exact hA3 t (hmemA2 t ht) htz
        · rw [List.pairwise_append, List.pairwise_cons]
          refine ⟨P5_1, ⟨?_, P5_2⟩, ?_⟩
          · intro y hy _ hyd
            have := hnoconst y (hmemA2 y hy) hyd
            exact hA3 y (hmemA2 y hy) this
          · intro x hx b hb
            rcases List.mem_cons.mp hb with rfl | hb
            · intro _ _
              rfl
            · exact P5_cross x hx b (List.mem_cons_of_mem _ hb)
        · intro t ht htd htz
          rcases List.mem_append.mp ht with ht | ht
          · exact Or.inr ⟨t, hmemA1 t ht, htd, htz⟩
          · rcases List.mem_cons.mp ht with rfl | ht
            · rw [constant_zero_is_zero] at htz
              cases htz
            · exact Or.inr ⟨t, hmemA2 t ht, htd, htz⟩
      · -- the merged coefficient stays nonzero: same monomial as `a`
        have hmE : (Term.Expression (ca + ce) vs : Term p).normalize =
            Term.Expression (ca + ce) vs := by
          unfold Term.normalize
          dsimp only
          rw [if_neg hsum, hsort]
        rw [hmE]
        have ha_nz : (Term.Expression ca vs : Term p).is_zero = false := by
          simp [Term.is_zero, hca]
        have hm_nz : (Term.Expression (ca + ce) vs : Term p).is_zero = false := by
          simp [Term.is_zero, hsum]
        have hmd : (Term.Expression (ca + ce) vs : Term p).degree ≠ 0 := held
        refine ⟨?_, ?_, ?_, ?_, ?_, ?_⟩
        · rw [List.filter_append, List.filter_cons]
          simp only [hm_nz, Bool.not_false, if_true]
          rw [List.pairwise_append, List.pairwise_cons]
          refine ⟨Q1, ⟨?_, Q2fa⟩, ?_⟩
          · intro y hy
            have := Qa2 ha_nz y hy
            exact Term.combine_none_left_congr this
          · intro x hx y hy
            rcases List.mem_cons.mp hy with rfl | hy
            · have := QcA x hx ha_nz
              exact Term.combine_none_right_congr this
            · exact Qc2 x hx y hy
        · intro t ht
          rcases List.mem_append.mp ht with ht | ht
          · exact hA2 t (hmemA1 t ht)
          · rcases List.mem_cons.mp ht with rfl | ht
            · exact hmE ▸ Term.normalize_idem _
            · exact hA2 t (hmemA2 t ht)
        · intro t ht
          rcases List.mem_append.mp ht with ht | ht
          · exact hA2w t (hmemA1 t ht)
          · rcases List.mem_cons.mp ht with rfl | ht
            · exact hvs
            · exact hA2w t (hmemA2 t ht)
        · intro t ht htz
          rcases List.mem_append.mp ht with ht | ht
          · exact hA3 t (hmemA1 t ht) htz
          · rcases List.mem_cons.mp ht with rfl | ht
            · rw [hm_nz] at htz
              cases htz
            · exact hA3 t (hmemA2 t ht) htz
        · rw [List.pairwise_append, List.pairwise_cons]
          refine ⟨P5_1, ⟨?_, P5_2⟩, ?_⟩
          · intro y hy hmd0
            exact absurd hmd0 hmd
          · intro x hx b hb
            rcases List.mem_cons.mp hb with rfl | hb
            · intro _ hmd0
              exact absurd hmd0 hmd
            · exact P5_cross x hx b (List.mem_cons_of_mem _ hb)
        · intro t ht htd htz
          rcases List.mem_append.mp ht with ht | ht
          · exact Or.inr ⟨t, hmemA1 t ht, htd, htz⟩
          · rcases List.mem_cons.mp ht with rfl | ht
            · exact absurd htd hmd
            · exact Or.inr ⟨t, hmemA2 t ht, htd, htz⟩

/-- The like-term folding loop over a sorted stream of normalized,
well-formed terms leaves an accumulator whose nonzero entries are
pairwise non-combinable, with every entry normalized, well formed, and
equal to `Constant 0` if zero. -/
theorem combineFold_invariant {p : ℕ} :
    ∀ (S A : List (Term p)),
      (∀ t ∈ S, t.normalize = t) → (∀ t ∈ S, t.wf) →
      (S.Pairwise fun a b => Term.le a b = true) →
      ((A.filter fun t => !t.is_zero).Pairwise fun a b => a.combine b = none) →
      (∀ t ∈ A, t.normalize = t) → (∀ t ∈ A, t.wf) →
      (∀ t ∈ A, t.is_zero = true → t = Term.Constant 0) →
      (A.Pairwise fun a b => a.degree = 0 → b.degree = 0 → b = Term.Constant 0) →
      (∀ s ∈ S, s.degree ≠ 0 → ∀ t ∈ A, t.degree = 0 → t.is_zero = true) →
      (((S.foldl insertCombine A).filter fun t => !t.is_zero).Pairwise
          fun a b => a.combine b = none) ∧
      (∀ t ∈ S.foldl insertCombine A, t.normalize = t) ∧
      (∀ t ∈ S.foldl insertCombine A, t.wf) ∧
      (∀ t ∈ S.foldl insertCombine A, t.is_zero = true → t = Term.Constant 0) := by
  intro S
  induction S with
  | nil =>
    intro A _ _ _ hA1 hA2 hA2w hA3 _ _
    exact ⟨hA1, hA2, hA2w, hA3⟩
  | cons el S ih =>
    intro A hS1 hS2 hS3 hA1 hA2 hA2w hA3 hA5 hI4
    rw [List.foldl_cons]
    have hel1 := hS1 el (List.mem_cons_self el S)
    have hel2 := hS2 el (List.mem_cons_self el S)
    have hconst : el.degree ≠ 0 → ∀ t ∈ A, t.degree = 0 → t.is_zero = true :=
      hI4 el (List.mem_cons_self el S)
    obtain ⟨hB1, hB2, hB2w, hB3, hB5, hB6⟩ :=
      insertCombine_invariant hA1 hA2 hA2w hA3 hA5 hel1 hel2 hconst
    refine ih (insertCombine A el)
      (fun t ht => hS1 t (List.mem_cons_of_mem el ht))
      (fun t ht => hS2 t (List.mem_cons_of_mem el ht))
      (List.pairwise_cons.mp hS3).2 hB1 hB2 hB2w hB3 hB5 ?_
    intro s hs hsd t ht htd
    by_contra htz
    rw [Bool.not_eq_true] at htz
    rcases hB6 t ht htd htz with held | ⟨t0, ht0, ht0d, ht0z⟩
    · have hle := (List.pairwise_cons.mp hS3).1 s hs
      have hds := Term.le_degree hle
      omega
    · have := hI4 s (List.mem_cons_of_mem el hs) hsd t0 ht0 ht0d
      rw [ht0z] at this
      cases this

/-- Unfolding of `normalizeList` with its intermediate stages spelled
out. -/
theorem normalizeList_eq {p : ℕ} (ts : List (Term p)) :
    normalizeList ts =
      (if degreeOfList ((combineLikeTerms
            ((ts.map Term.normalize).insertionSort Term.leP)).filter
          fun t => !t.is_zero) ≤ 2 then
        if degreeOfList ((combineLikeTerms
              ((ts.map Term.normalize).insertionSort Term.leP)).filter
            fun t => !t.is_zero) = 0 ∧
            ((combineLikeTerms ((ts.map Term.normalize).insertionSort Term.leP)).filter
              fun t => !t.is_zero) = [Term.Constant 0] then
          some []
        else
          if degreeOfList ((combineLikeTerms
                ((ts.map Term.normalize).insertionSort Term.leP)).filter
              fun t => !t.is_zero) ≤
              degreeOfList ((ts.map Term.normalize).insertionSort Term.leP) then
            some ((((combineLikeTerms
                ((ts.map Term.normalize).insertionSort Term.leP)).filter
              fun t => !t.is_zero).map Term.normalize).insertionSort Term.leP)
          else none
      else none) := rfl

/-- The full postcondition of `Constraint::normalize` on term lists: the
coefficient function is preserved, every output term is normalized, well
formed and nonzero, no two output terms are like terms, the output is
sorted, and its degree is at most 2. -/
theorem normalizeList_spec {p : ℕ} {ts us : List (Term p)}
    (hwf : ∀ t ∈ ts, t.wf) (h : normalizeList ts = some us) :
    (∀ m, coeffAt us m = coeffAt ts m) ∧
    (∀ t ∈ us, t.normalize = t) ∧ (∀ t ∈ us, t.wf) ∧
    (∀ t ∈ us, t.is_zero = false) ∧
    (us.Pairwise fun a b => a.combine b = none) ∧
    (us.Pairwise fun a b => Term.le a b = true) ∧
    degreeOfList us ≤ 2 := by
  have hS1 : ∀ t ∈ (ts.map Term.normalize).insertionSort Term.leP,
      t.normalize = t := by
    intro t ht
    have hmem :=
      (List.perm_insertionSort Term.leP (ts.map Term.normalize)).mem_iff.mp ht
    obtain ⟨t0, _, rfl⟩ := List.mem_map.mp hmem
    exact Term.normalize_idem t0
  have hS2 : ∀ t ∈ (ts.map Term.normalize).insertionSort Term.leP, t.wf := by
    intro t ht
    have hmem :=
      (List.perm_insertionSort Term.leP (ts.map Term.normalize)).mem_iff.mp ht
    obtain ⟨t0, ht0, rfl⟩ := List.mem_map.mp hmem
    exact Term.wf_normalize (hwf t0 ht0)
  have hS3 : ((ts.map Term.normalize).insertionSort Term.leP).Pairwise
      (fun a b => Term.le a b = true) :=
    Term.sorted_insertionSortLe (ts.map Term.normalize)
  obtain ⟨hB1, hB2, hB2w, hB3⟩ :=
    combineFold_invariant ((ts.map Term.normalize).insertionSort Term.leP) []
      hS1 hS2 hS3 (by simp) (by simp) (by simp) (by simp) (by simp) (by simp)
  have hcoeff : ∀ m,
      coeffAt ((combineLikeTerms ((ts.map Term.normalize).insertionSort Term.leP)).filter
        fun t => !t.is_zero) m = coeffAt ts m := by
    intro m
    rw [coeffAt_filter_nonzero, combineLikeTerms_coeffAt,
      coeffAt_perm (List.perm_insertionSort Term.leP (ts.map Term.normalize)) m,
      coeffAt_map_normalize]
  rw [normalizeList_eq] at h
  split at h
  · split at h
    · -- the filtered list is the single zero constant: the result is empty
      rename_i hd2 hspec
      rw [Option.some_inj] at h
      subst h
      refine ⟨?_, by simp, by simp, by simp, by simp, by simp,
        by simp [degreeOfList_le_iff]⟩
      intro m
      rw [coeffAt_nil, ← hcoeff m, hspec.2, coeffAt_cons, coeffAt_nil,
        termContrib_zero constant_zero_is_zero, add_zero]
    · split at h
      · rename_i hd2 hspec hmono
        rw [Option.some_inj] at h
        subst h
        have hmapid : ((combineLikeTerms
              ((ts.map Term.normalize).insertionSort Term.leP)).filter
            fun t => !t.is_zero).map Term.normalize =
            (combineLikeTerms ((ts.map Term.normalize).insertionSort Term.leP)).filter
              fun t => !t.is_zero := by
          conv_rhs => rw [← List.map_id ((combineLikeTerms
            ((ts.map Term.normalize).insertionSort Term.leP)).filter
              fun t => !t.is_zero)]
          refine List.map_congr_left ?_
          intro a ha
          exact hB2 a (List.mem_filter.mp ha).1
        rw [hmapid]
        have hperm := List.perm_insertionSort Term.leP ((combineLikeTerms
            ((ts.map Term.normalize).insertionSort Term.leP)).filter
          fun t => !t.is_zero)
        refine ⟨?_, ?_, ?_, ?_, ?_, ?_, ?_⟩
        · intro m
          rw [coeffAt_perm hperm m, hcoeff m]
        · intro t ht
          exact hB2 t (List.mem_filter.mp (hperm.mem_iff.mp ht)).1
        · intro t ht
          exact hB2w t (List.mem_filter.mp (hperm.mem_iff.mp ht)).1
        · intro t ht
          have := (List.mem_filter.mp (hperm.mem_iff.mp ht)).2
          simpa using this
        · exact (List.Perm.pairwise_iff
            (fun hab => Term.combine_none_symm hab) hperm).mpr hB1
        · exact Term.sorted_insertionSortLe _
        · rw [degreeOfList_le_iff]
          intro t ht
          calc t.degree ≤ degreeOfList ((combineLikeTerms
              ((ts.map Term.normalize).insertionSort Term.leP)).filter
                fun t => !t.is_zero) :=
                degree_le_degreeOfList (hperm.mem_iff.mp ht)
            _ ≤ 2 := hd2
      · exact absurd h (by simp)
  · exact absurd h (by simp)

theorem degreeOfList_sort_normalize_le {p : ℕ} (L : List (Term p)) :
    degreeOfList ((L.map Term.normalize).insertionSort Term.leP) ≤ degreeOfList L := by
  rw [degreeOfList_le_iff]
  intro t ht
  obtain ⟨t0, ht0, rfl⟩ :=
    List.mem_map.mp
      ((List.perm_insertionSort Term.leP (L.map Term.normalize)).mem_iff.mp ht)
  exact Nat.le_trans (Term.degree_normalize_le t0) (degree_le_degreeOfList ht0)

/-- C3. `Constraint::normalize` fails hard when the polynomial has degree
greater than 2 once like terms are combined and zero terms removed; when
it returns, the degree of the result is at most 2 and no larger than the
degree the constraint had on entry. -/
theorem constraint_normalize_degree {p : ℕ} (C : Constraint p) :
    (2 < degreeOfList ((combineLikeTerms
          ((C.terms.map Term.normalize).insertionSort Term.leP)).filter
        fun t => !t.is_zero) → C.normalize = none) ∧
    (∀ D, C.normalize = some D → D.degree ≤ 2 ∧ D.degree ≤ C.degree) := by
  constructor
  · intro hgt
    unfold Constraint.normalize
    rw [normalizeList_eq, if_neg (by omega)]
    rfl
  · intro D hD
    unfold Constraint.normalize at hD
    rcases Option.map_eq_some'.mp hD with ⟨us, hus, rfl⟩
    rw [normalizeList_eq] at hus
    split at hus
    · split at hus
      · rw [Option.some_inj] at hus
        subst hus
        exact ⟨Nat.zero_le 2, Nat.zero_le _⟩
      · split at hus
        · rename_i hd2 hspec hmono
          rw [Option.some_inj] at hus
          subst hus
          have hle : degreeOfList ((((combineLikeTerms
                ((C.terms.map Term.normalize).insertionSort Term.leP)).filter
              fun t => !t.is_zero).map Term.normalize).insertionSort Term.leP) ≤
              degreeOfList ((combineLikeTerms
                ((C.terms.map Term.normalize).insertionSort Term.leP)).filter
              fun t => !t.is_zero) :=
            degreeOfList_sort_normalize_le _
          have hinit : degreeOfList ((C.terms.map Term.normalize).insertionSort Term.leP) ≤
              degreeOfList C.terms :=
            degreeOfList_sort_normalize_le _
          refine ⟨?_, ?_⟩ <;>
          · unfold Constraint.degree
            dsimp only
            omega
        · exact absurd hus (by simp)
    · exact absurd hus (by simp)

/-- C3, witness: a degree-3 monomial makes normalization panic. -/
theorem constraint_normalize_degree_witness :
    2 < degreeOfList ((combineLikeTerms
          (((⟨[Term.Expression 1 [0, 1, 2]]⟩ : Constraint 5).terms.map
            Term.normalize).insertionSort Term.leP)).filter
        fun t => !t.is_zero) ∧
      (⟨[Term.Expression 1 [0, 1, 2]]⟩ : Constraint 5).normalize = none :=
  ⟨by decide,
    (constraint_normalize_degree (⟨[Term.Expression 1 [0, 1, 2]]⟩ :
      Constraint 5)).1 (by decide)⟩

theorem insertCombine_of_none {p : ℕ} {el : Term p} :
    ∀ {acc : List (Term p)}, (∀ a ∈ acc, a.combine el = none) →
      insertCombine acc el = acc ++ [el] := by
  intro acc
  induction acc with
  | nil => intro _; rfl
  | cons a rest ih =>
    intro h
    unfold insertCombine
    rw [h a (List.mem_cons_self a rest), ih fun x hx => h x (List.mem_cons_of_mem a hx)]
    rfl

theorem combineFold_of_pairwise {p : ℕ} :
    ∀ (ts acc : List (Term p)),
      (ts.Pairwise fun a b => a.combine b = none) →
      (∀ a ∈ acc, ∀ b ∈ ts, a.combine b = none) →
      ts.foldl insertCombine acc = acc ++ ts := by
  intro ts
  induction ts with
  | nil => intro acc _ _; simp
  | cons t ts ih =>
    intro acc hp hc
    rw [List.foldl_cons,
      insertCombine_of_none fun a ha => hc a ha t (List.mem_cons_self t ts),
      ih (acc ++ [t]) (List.pairwise_cons.mp hp).2 ?_]
    · rw [List.append_assoc, List.singleton_append]
    · intro a ha b hb
      rcases List.mem_append.mp ha with ha | ha
      · exact hc a ha b (List.mem_cons_of_mem t hb)
      · rw [List.mem_singleton.mp ha]
        exact (List.pairwise_cons.mp hp).1 b hb

/-- C9. Normalization is idempotent: normalizing the output of a
successful `Constraint::normalize` returns it unchanged. -/
theorem constraint_normalize_idempotent {p : ℕ} (C D : Constraint p)
    (hwf : C.wf) (h : C.normalize = some D) : D.normalize = some D := by
  unfold Constraint.normalize at h ⊢
  rcases Option.map_eq_some'.mp h with ⟨us, hus, rfl⟩
  obtain ⟨hco, hnorm, hwf2, hnz, hNC, hsorted, hdeg⟩ := normalizeList_spec hwf hus
  have hmap : us.map Term.normalize = us := by
    conv_rhs => rw [← List.map_id us]
    exact List.map_congr_left fun a ha => hnorm a ha
  have hsort2 : us.insertionSort Term.leP = us := Term.insertionSortLe_of_sorted hsorted
  have hfold : combineLikeTerms us = us := by
    unfold combineLikeTerms
    rw [combineFold_of_pairwise us [] hNC (by simp), List.nil_append]
  have hfilter : us.filter (fun t => !t.is_zero) = us :=
    List.filter_eq_self.mpr fun a ha => by simp [hnz a ha]
  show (normalizeList us).map Constraint.mk = some (Constraint.mk us)
  rw [normalizeList_eq, hmap, hsort2, hfold, hfilter, hmap, hsort2, if_pos hdeg]
  have hnot : ¬(degreeOfList us = 0 ∧ us = [Term.Constant 0]) := by
    rintro ⟨_, habs⟩
    have hmem : (Term.Constant 0 : Term p) ∈ us := by
      rw [habs]
      exact List.mem_cons_self _ _
    have hz := hnz _ hmem
    rw [constant_zero_is_zero] at hz
    cases hz
  rw [if_neg hnot, if_pos (Nat.le_refl _)]
  rfl

/-- C9, witness: a constraint with a duplicated linear term normalizes to
a fixed point of normalization. -/
theorem constraint_normalize_idempotent_witness :
    (⟨[Term.Expression 1 [3], Term.Expression 1 [3], Term.Constant 2]⟩ :
      Constraint 5).wf ∧
    (⟨[Term.Expression 1 [3], Term.Expression 1 [3], Term.Constant 2]⟩ :
      Constraint 5).normalize =
      some ⟨[Term.Expression 2 [3], Term.Constant 2]⟩ ∧
    (⟨[Term.Expression 2 [3], Term.Constant 2]⟩ :
      Constraint 5).normalize =
      some ⟨[Term.Expression 2 [3], Term.Constant 2]⟩ :=
  ⟨by decide, by decide,
    constraint_normalize_idempotent
      (⟨[Term.Expression 1 [3], Term.Expression 1 [3], Term.Constant 2]⟩ :
        Constraint 5)
      ⟨[Term.Expression 2 [3], Term.Constant 2]⟩ (by decide) (by decide)⟩

/-! ## Theorems: constraint algebra — expressing and substituting a variable -/

theorem Term.wf_scale {p : ℕ} {t : Term p} (f : ZMod p) (h : t.wf) :
    (t.scale f).wf := by
  cases t with
  | Constant c => trivial
  | Expression c vs => exact h

theorem Term.monom_ne_of_combine_none {p : ℕ} {t u : Term p}
    (ht : t.normalize = t) (hu : u.normalize = u) (htw : t.wf) (huw : u.wf)
    (h : t.combine u = none) : t.monom ≠ u.monom := by
  intro hm
  cases t with
  | Constant c =>
    cases u with
    | Constant d =>
      simp [Term.combine, Term.degree] at h
    | Expression d ws =>
      simp only [Term.monom] at hm
      exact huw ((Multiset.coe_eq_zero ws).mp hm.symm)
  | Expression c vs =>
    cases u with
    | Constant d =>
      simp only [Term.monom] at hm
      exact htw ((Multiset.coe_eq_zero vs).mp hm)
    | Expression d ws =>
      simp only [Term.monom] at hm
      have hvs := (Term.normalized_expression ht).2
      have hws := (Term.normalized_expression hu).2
      have hperm : vs.Perm ws := Multiset.coe_eq_coe.mp hm
      have hsorted1 : vs.Sorted fun a b : Variable => a ≤ b := by
        rw [← hvs]
        exact List.sorted_insertionSort _ vs
      have hsorted2 : ws.Sorted fun a b : Variable => a ≤ b := by
        rw [← hws]
        exact List.sorted_insertionSort _ ws
      have heq : vs = ws := List.eq_of_perm_of_sorted hperm hsorted1 hsorted2
      subst heq
      simp [Term.combine, Term.degree] at h

theorem coeffAt_zero_of_no_monom {p : ℕ} {m : Multiset Variable} :
    ∀ {ts : List (Term p)}, (∀ t ∈ ts, t.monom ≠ m) → coeffAt ts m = 0 := by
  intro ts
  induction ts with
  | nil => intro _; rfl
  | cons t rest ih =>
    intro h
    rw [coeffAt_cons, ih fun u hu => h u (List.mem_cons_of_mem t hu), add_zero]
    unfold termContrib
    rw [if_neg (h t (List.mem_cons_self t rest))]

/-- A list of pairwise non-combinable, normalized, well-formed, nonzero
terms whose coefficient function vanishes is empty. -/
theorem eq_nil_of_coeffAt_zero {p : ℕ} {us : List (Term p)}
    (hnorm : ∀ t ∈ us, t.normalize = t) (hwfs : ∀ t ∈ us, t.wf)
    (hnz : ∀ t ∈ us, t.is_zero = false)
    (hNC : us.Pairwise fun a b => a.combine b = none)
    (hz : ∀ m, coeffAt us m = 0) : us = [] := by
  cases us with
  | nil => rfl
  | cons t rest =>
    exfalso
    have hrest : coeffAt rest t.monom = 0 := by
      apply coeffAt_zero_of_no_monom
      intro u hu hmm
      exact Term.monom_ne_of_combine_none
        (hnorm t (List.mem_cons_self t rest))
        (hnorm u (List.mem_cons_of_mem t hu))
        (hwfs t (List.mem_cons_self t rest))
        (hwfs u (List.mem_cons_of_mem t hu))
        ((List.pairwise_cons.mp hNC).1 u hu) hmm.symm
    have h0 := hz t.monom
    rw [coeffAt_cons, hrest, add_zero] at h0
    unfold termContrib at h0
    rw [if_pos rfl] at h0
    have hzt : t.is_zero = true := by
      cases t with
      | Constant c =>
        simp only [Term.get_coef] at h0
        simp [Term.is_zero, h0]
      | Expression c vs =>
        simp only [Term.get_coef] at h0
        simp [Term.is_zero, h0]
    rw [hnz t (List.mem_cons_self t rest)] at hzt
    cases hzt

/-- Normalizing a term list whose coefficient function vanishes
identically succeeds and yields the empty list. -/
theorem normalizeList_of_coeffAt_zero {p : ℕ} {ts : List (Term p)}
    (hwf : ∀ t ∈ ts, t.wf) (hz : ∀ m, coeffAt ts m = 0) :
    normalizeList ts = some [] := by
  have hS1 : ∀ t ∈ (ts.map Term.normalize).insertionSort Term.leP,
      t.normalize = t := by
    intro t ht
    have hmem :=
      (List.perm_insertionSort Term.leP (ts.map Term.normalize)).mem_iff.mp ht
    obtain ⟨t0, _, rfl⟩ := List.mem_map.mp hmem
    exact Term.normalize_idem t0
  have hS2 : ∀ t ∈ (ts.map Term.normalize).insertionSort Term.leP, t.wf := by
    intro t ht
    have hmem :=
      (List.perm_insertionSort Term.leP (ts.map Term.normalize)).mem_iff.mp ht
    obtain ⟨t0, ht0, rfl⟩ := List.mem_map.mp hmem
    exact Term.wf_normalize (hwf t0 ht0)
  have hS3 := Term.sorted_insertionSortLe (ts.map Term.normalize)
  obtain ⟨hB1, hB2, hB2w, hB3⟩ :=
    combineFold_invariant ((ts.map Term.normalize).insertionSort Term.leP) []
      hS1 hS2 hS3 (by simp) (by simp) (by simp) (by simp) (by simp) (by simp)
  have hF : ((combineLikeTerms
      ((ts.map Term.normalize).insertionSort Term.leP)).filter
      fun t => !t.is_zero) = [] := by
    apply eq_nil_of_coeffAt_zero
    · intro t ht
      exact hB2 t (List.mem_filter.mp ht).1
    · intro t ht
      exact hB2w t (List.mem_filter.mp ht).1
    · intro t ht
      have := (List.mem_filter.mp ht).2
      simpa using this
    · exact hB1
    · intro m
      rw [coeffAt_filter_nonzero, combineLikeTerms_coeffAt,
        coeffAt_perm (List.perm_insertionSort Term.leP (ts.map Term.normalize)) m,
        coeffAt_map_normalize, hz m]
  rw [normalizeList_eq, hF]
  rw [if_pos (show degreeOfList ([] : List (Term p)) ≤ 2 from Nat.zero_le 2)]
  rw [if_neg (show ¬(degreeOfList ([] : List (Term p)) = 0 ∧
      ([] : List (Term p)) = [Term.Constant 0]) from fun h => List.noConfusion h.2)]
  rw [if_pos (show degreeOfList ([] : List (Term p)) ≤
      degreeOfList ((ts.map Term.normalize).insertionSort Term.leP) from
    Nat.zero_le _)]
  rfl

theorem exprScan_noncontain {p : ℕ} (v : Variable) :
    ∀ (R : List (Term p)) (pf : ZMod p),
      (∀ t ∈ R, t.contains_var v = false) → exprScan v R pf = some (R, pf) := by
  intro R
  induction R with
  | nil => intro _ _; rfl
  | cons t R ih =>
    intro pf h
    unfold exprScan
    rw [h t (List.mem_cons_self t R), if_neg Bool.false_ne_true,
      ih pf fun u hu => h u (List.mem_cons_of_mem t hu)]
    rfl

/-- The scan of `express_variable` on a list with a single containing
term, linear in the variable: it drops that term and reports its
coefficient as the prefactor. -/
theorem exprScan_eq {p : ℕ} (v : Variable) (R2 : List (Term p)) (a : ZMod p)
    (hR2 : ∀ t ∈ R2, t.contains_var v = false) :
    ∀ (R : List (Term p)), (∀ t ∈ R, t.contains_var v = false) →
      exprScan v (R ++ Term.Expression a [v] :: R2) 0 = some (R ++ R2, a) := by
  intro R
  induction R with
  | nil =>
    intro _
    have hc : (Term.Expression a [v] : Term p).contains_var v = true := by
      simp [Term.contains_var]
    have hd : (Term.Expression a [v] : Term p).degree_for_var v = 1 := by
      simp [Term.degree_for_var]
    rw [List.nil_append]
    unfold exprScan
    rw [if_pos hc, if_pos hd]
    dsimp only [Term.prefactor_for_var]
    rw [exprScan_noncontain v R2 a hR2]
    rfl
  | cons t R ih =>
    intro hR
    rw [List.cons_append]
    unfold exprScan
    rw [hR t (List.mem_cons_self t R), if_neg Bool.false_ne_true,
      ih fun u hu => hR u (List.mem_cons_of_mem t hu)]
    rfl

theorem substScan_noncontain {p : ℕ} (v : Variable) (E : Constraint p) :
    ∀ (R : List (Term p)), (∀ t ∈ R, t.contains_var v = false) →
      substScan v E R = some ([], R) := by
  intro R
  induction R with
  | nil => intro _; rfl
  | cons t R ih =>
    intro h
    unfold substScan
    rw [h t (List.mem_cons_self t R), if_neg Bool.false_ne_true,
      ih fun u hu => h u (List.mem_cons_of_mem t hu)]
    rfl

/-- The scan of `substitute_variable` on a list with a single containing
term, linear in the variable: the replacement list is the expression
scaled by that term's coefficient and the kept terms are the rest. -/
theorem substScan_eq {p : ℕ} (v : Variable) (E : Constraint p)
    (R2 : List (Term p)) (a : ZMod p)
    (hR2 : ∀ t ∈ R2, t.contains_var v = false) :
    ∀ (R : List (Term p)), (∀ t ∈ R, t.contains_var v = false) →
      substScan v E (R ++ Term.Expression a [v] :: R2) =
        some ([E.scale a], R ++ R2) := by
  intro R
  induction R with
  | nil =>
    intro _
    have hc : (Term.Expression a [v] : Term p).contains_var v = true := by
      simp [Term.contains_var]
    rw [List.nil_append]
    unfold substScan
    rw [if_pos hc]
    rw [substScan_noncontain v E R2 hR2]
    rfl
  | cons t R ih =>
    intro hR
    rw [List.cons_append]
    unfold substScan
    rw [hR t (List.mem_cons_self t R), if_neg Bool.false_ne_true,
      ih fun u hu => hR u (List.mem_cons_of_mem t hu)]
    rfl

/-- C2 (amended). When the constraint has exactly one term containing the
variable and that term is linear in it, substituting the expressed
variable back cancels everything: the result is the empty constraint, on
which `as_constant` panics (it asserts exactly one term) instead of
returning zero. -/
theorem substitute_expressed_variable_spec {p : ℕ} [Fact p.Prime]
    (C : Constraint p) (v : Variable) (R R2 : List (Term p)) (a : ZMod p)
    (E D : Constraint p)
    (hwf : C.wf)
    (hC : C.terms = R ++ Term.Expression a [v] :: R2)
    (hR : ∀ t ∈ R, t.contains_var v = false)
    (hR2 : ∀ t ∈ R2, t.contains_var v = false)
    (hE : C.express_variable v = some E)
    (hD : C.substitute_variable v E = some D) :
    D = Constraint.mk [] ∧ D.as_constant = none := by
  by_cases hg : C.contains_var v = true ∧ C.degree_for_var v = 1
  case neg =>
    rw [Constraint.express_variable, if_neg hg] at hE
    cases hE
  case pos =>
  rw [Constraint.express_variable, if_pos hg, hC,
    exprScan_eq v R2 a hR2 R hR] at hE
  simp only [Option.some_bind] at hE
  by_cases ha : a = 0
  · rw [if_pos ha] at hE
    cases hE
  rw [if_neg ha] at hE
  obtain ⟨E0, hE0, rfl⟩ := Option.map_eq_some'.mp hE
  have hwfS : ∀ t ∈ R ++ R2, t.wf := by
    intro t ht
    apply hwf
    rw [hC]
    rcases List.mem_append.mp ht with h | h
    · exact List.mem_append.mpr (Or.inl h)
    · exact List.mem_append.mpr (Or.inr (List.mem_cons_of_mem _ h))
  have hwfSc : ∀ t ∈ (R ++ R2).map fun t => t.scale (-a⁻¹), t.wf := by
    intro t ht
    obtain ⟨t0, ht0, rfl⟩ := List.mem_map.mp ht
    exact Term.wf_scale _ (hwfS t0 ht0)
  obtain ⟨hcoE, hnormE, hwfE, hnzE, hncE, hsortE, hdegE⟩ :=
    normalizeList_spec hwfSc hE0
  have hzero : ∀ m,
      coeffAt ((R ++ R2) ++ ((Constraint.mk E0).scale a).terms) m = 0 := by
    intro m
    rw [coeffAt_append]
    show coeffAt (R ++ R2) m + coeffAt (E0.map fun t => t.scale a) m = 0
    rw [coeffAt_scaleList, hcoE m, coeffAt_scaleList]
    have hinv : (-a⁻¹) * a = -1 := by
      rw [neg_mul, inv_mul_cancel₀ ha]
    rw [mul_assoc, hinv, mul_neg_one, add_neg_cancel]
  have hadd : (Constraint.mk (R ++ R2)).add ((Constraint.mk E0).scale a) =
      some (Constraint.mk []) := by
    show (normalizeList ((R ++ R2) ++ ((Constraint.mk E0).scale a).terms)).map
      Constraint.mk = some (Constraint.mk [])
    rw [normalizeList_of_coeffAt_zero ?_ hzero]
    · rfl
    · intro t ht
      rcases List.mem_append.mp ht with h | h
      · exact hwfS t h
      · obtain ⟨t0, ht0, rfl⟩ := List.mem_map.mp h
        exact Term.wf_scale _ (hwfE t0 ht0)
  rw [Constraint.substitute_variable, if_pos hg, hC,
    substScan_eq v (Constraint.mk E0) R2 a hR2 R hR] at hD
  simp only [Option.some_bind, List.foldlM_cons, List.foldlM_nil,
    Option.pure_def, Option.bind_eq_bind] at hD
  rw [hadd] at hD
  simp only [Option.some_bind] at hD
  rw [if_pos (show (Constraint.mk ([] : List (Term p))).degree ≤ 2 from
    Nat.zero_le 2)] at hD
  simp only [Option.some_bind] at hD
  have hnorm0 : (Constraint.mk ([] : List (Term p))).normalize =
      some (Constraint.mk []) := rfl
  rw [hnorm0, Option.some_inj] at hD
  subst hD
  exact ⟨rfl, rfl⟩

/-- The expression step at the counterexample input: x0 + 1 = 0 is
solved as x0 = -1 = 4 over the five-element field. -/
theorem exampleExpress_eq :
    (⟨[Term.Expression 1 [0], Term.Constant 1]⟩ : Constraint 5).express_variable
      0 = some ⟨[Term.Constant 4]⟩ := by
  rw [Constraint.express_variable, if_pos (by decide)]
  rw [show exprScan 0 (⟨[Term.Expression 1 [0], Term.Constant 1]⟩ :
      Constraint 5).terms 0 = some ([Term.Constant 1], 1) from by decide]
  simp only [Option.some_bind]
  rw [if_neg (by decide : ¬(1 : ZMod 5) = 0), inv_one]
  decide

/-- C2, counterexample to the claim as stated: for C = x0 + 1 over the
five-element field, expressing x0 gives 4 and substituting it back gives
the empty constraint, whose `as_constant` asserts on the term count
(panics) instead of returning zero. -/
theorem substitute_claim_false :
    (⟨[Term.Expression 1 [0], Term.Constant 1]⟩ : Constraint 5).contains_var
      0 = true ∧
    (∀ t ∈ (⟨[Term.Expression 1 [0], Term.Constant 1]⟩ : Constraint 5).terms,
      t.contains_var 0 = true → t.degree_for_var 0 = 1) ∧
    (⟨[Term.Expression 1 [0], Term.Constant 1]⟩ : Constraint 5).express_variable
      0 = some ⟨[Term.Constant 4]⟩ ∧
    ¬∃ r, (⟨[Term.Expression 1 [0], Term.Constant 1]⟩ :
        Constraint 5).substitute_variable 0 ⟨[Term.Constant 4]⟩ = some r ∧
      r.as_constant = some 0 := by
  refine ⟨by decide, by decide, exampleExpress_eq, ?_⟩
  rintro ⟨r, hr, hc⟩
  rw [show (⟨[Term.Expression 1 [0], Term.Constant 1]⟩ :
      Constraint 5).substitute_variable 0 ⟨[Term.Constant 4]⟩ =
      some ⟨[]⟩ from by decide, Option.some_inj] at hr
  subst hr
  exact absurd hc (by decide)

/-- C2, witness for the amended statement at the counterexample input. -/
theorem substitute_expressed_variable_spec_witness :
    (⟨[Term.Expression 1 [0], Term.Constant 1]⟩ : Constraint 5).express_variable
      0 = some ⟨[Term.Constant 4]⟩ ∧
    (⟨[Term.Expression 1 [0], Term.Constant 1]⟩ :
      Constraint 5).substitute_variable 0 ⟨[Term.Constant 4]⟩ = some ⟨[]⟩ ∧
    ((⟨[]⟩ : Constraint 5) = Constraint.mk [] ∧
      (⟨[]⟩ : Constraint 5).as_constant = none) :=
  ⟨exampleExpress_eq, by decide,
    substitute_expressed_variable_spec
      (⟨[Term.Expression 1 [0], Term.Constant 1]⟩ : Constraint 5) 0
      [] [Term.Constant 1] 1 ⟨[Term.Constant 4]⟩ ⟨[]⟩
      (by decide) rfl (by simp) (by decide)
      exampleExpress_eq (by decide)⟩

end Airbender

